import Mathlib

/-!
Verification of the data-normalization and configuration-merge layer of the
datawrapper-mcp repository, as a shallow embedding in Lean 4.

Python strings are modelled as lists of unicode code points (List Nat), so
that the embedding is faithful to Python semantics (including lone
surrogates, which Lean Char cannot represent).  Python JSON values (the
results of json.loads) are modelled by the inductive type PyVal; numeric
literals are kept as their source token, which models the int/float
distinction without committing to floating-point arithmetic.
-/

abbrev PyString := List Nat

/-- Conversion from a Lean string literal to the code-point model, used only
to write concrete test inputs readably. -/
def pystr (s : String) : PyString := s.data.map Char.toNat

/-- Model of a Python value as produced by json.loads, and of the values the
normalizer accepts directly (lists, dicts, strings, scalars).  A num carries
the numeric literal token (so 1 and 1.0 stay distinguishable, as int vs
float in Python). -/
inductive PyVal where
  | none : PyVal
  | bool : Bool → PyVal
  | num : PyString → PyVal
  | str : PyString → PyVal
  | list : List PyVal → PyVal
  | dict : List (PyString × PyVal) → PyVal
deriving Repr

mutual

/-- Boolean structural equality on embedded Python values. -/
def PyVal.beq : PyVal → PyVal → Bool
  | .none, .none => true
  | .bool a, .bool b => a == b
  | .num a, .num b => a == b
  | .str a, .str b => a == b
  | .list xs, .list ys => PyVal.beqList xs ys
  | .dict xs, .dict ys => PyVal.beqDict xs ys
  | _, _ => false

/-- Boolean equality on lists of embedded Python values. -/
def PyVal.beqList : List PyVal → List PyVal → Bool
  | [], [] => true
  | x :: xs, y :: ys => PyVal.beq x y && PyVal.beqList xs ys
  | _, _ => false

/-- Boolean equality on key-value lists of embedded Python values. -/
def PyVal.beqDict : List (PyString × PyVal) → List (PyString × PyVal) → Bool
  | [], [] => true
  | (k1, v1) :: xs, (k2, v2) :: ys =>
      k1 == k2 && PyVal.beq v1 v2 && PyVal.beqDict xs ys
  | _, _ => false

end

mutual

/-- Structural size of an embedded Python value, used for induction. -/
def PyVal.psize : PyVal → Nat
  | .none => 1
  | .bool _ => 1
  | .num _ => 1
  | .str _ => 1
  | .list xs => 1 + PyVal.psizeList xs
  | .dict kvs => 1 + PyVal.psizeDict kvs

/-- Structural size of a list of embedded Python values. -/
def PyVal.psizeList : List PyVal → Nat
  | [] => 0
  | x :: xs => PyVal.psize x + 1 + PyVal.psizeList xs

/-- Structural size of a key-value list of embedded Python values. -/
def PyVal.psizeDict : List (PyString × PyVal) → Nat
  | [] => 0
  | kv :: kvs => PyVal.psize kv.2 + 1 + PyVal.psizeDict kvs

end

theorem PyVal.psize_lt_of_mem {x : PyVal} {xs : List PyVal} (h : x ∈ xs) :
    PyVal.psize x < 1 + PyVal.psizeList xs := by
  induction xs with
  | nil => cases h
  | cons y ys ih =>
    rcases List.mem_cons.mp h with rfl | h2
    · simp [PyVal.psizeList]; omega
    · have := ih h2
      simp [PyVal.psizeList]
      omega

theorem PyVal.psize_lt_of_mem_dict {kv : PyString × PyVal}
    {kvs : List (PyString × PyVal)} (h : kv ∈ kvs) :
    PyVal.psize kv.2 < 1 + PyVal.psizeDict kvs := by
  induction kvs with
  | nil => cases h
  | cons lv lvs ih =>
    rcases List.mem_cons.mp h with rfl | h2
    · simp [PyVal.psizeDict]; omega
    · have := ih h2
      simp [PyVal.psizeDict]
      omega

/-- Custom induction principle for the nested inductive PyVal, giving the
inductive hypothesis at every list member and every dict value. -/
theorem PyVal.inductionOn (P : PyVal → Prop)
    (hnone : P .none) (hbool : ∀ b, P (.bool b)) (hnum : ∀ t, P (.num t))
    (hstr : ∀ s, P (.str s))
    (hlist : ∀ xs, (∀ x ∈ xs, P x) → P (.list xs))
    (hdict : ∀ kvs, (∀ kv ∈ kvs, P kv.2) → P (.dict kvs)) :
    ∀ v, P v := by
  have main : ∀ n v, PyVal.psize v ≤ n → P v := by
    intro n
    induction n with
    | zero =>
      intro v hv
      exfalso
      cases v <;> simp [PyVal.psize] at hv
    | succ n ih =>
      intro v hv
      cases v with
      | none => exact hnone
      | bool b => exact hbool b
      | num t => exact hnum t
      | str s => exact hstr s
      | list xs =>
        refine hlist xs (fun x hx => ih x ?_)
        have hlt := PyVal.psize_lt_of_mem hx
        simp [PyVal.psize] at hv
        omega
      | dict kvs =>
        refine hdict kvs (fun kv hkv => ih kv.2 ?_)
        have hlt := PyVal.psize_lt_of_mem_dict hkv
        simp [PyVal.psize] at hv
        omega
  exact fun v => main (PyVal.psize v) v le_rfl

theorem PyVal.beq_iff : ∀ v w : PyVal, (PyVal.beq v w = true) ↔ v = w := by
  intro v
  induction v using PyVal.inductionOn with
  | hnone => intro w; cases w <;> simp [PyVal.beq]
  | hbool b => intro w; cases w <;> simp [PyVal.beq]
  | hnum t => intro w; cases w <;> simp [PyVal.beq]
  | hstr s => intro w; cases w <;> simp [PyVal.beq]
  | hlist xs ih =>
    intro w
    cases w with
    | list ys =>
      simp only [PyVal.beq]
      induction xs generalizing ys with
      | nil => cases ys <;> simp [PyVal.beqList]
      | cons x xs ihx =>
        cases ys with
        | nil => simp [PyVal.beqList]
        | cons y ys =>
          simp only [PyVal.beqList, Bool.and_eq_true]
          rw [ih x (by simp)]
          constructor
          · rintro ⟨rfl, h2⟩
            have := (ihx (fun a ha => ih a (by simp [ha])) ys).mp h2
            simp_all
          · rintro h
            injection h with h
            injection h with h1 h2
            subst h1
            refine ⟨rfl, ?_⟩
            exact (ihx (fun a ha => ih a (by simp [ha])) ys).mpr (by rw [h2])
    | none => simp [PyVal.beq]
    | bool b => simp [PyVal.beq]
    | num t => simp [PyVal.beq]
    | str s => simp [PyVal.beq]
    | dict kvs => simp [PyVal.beq]
  | hdict kvs ih =>
    intro w
    cases w with
    | dict lvs =>
      simp only [PyVal.beq]
      induction kvs generalizing lvs with
      | nil => cases lvs <;> simp [PyVal.beqDict]
      | cons kv kvs ihx =>
        cases lvs with
        | nil => cases kv; simp [PyVal.beqDict]
        | cons lv lvs =>
          cases kv with
          | mk k v1 =>
            cases lv with
            | mk l v2 =>
              simp only [PyVal.beqDict, Bool.and_eq_true, beq_iff_eq]
              rw [ih ⟨k, v1⟩ (by simp)]
              constructor
              · rintro ⟨⟨rfl, rfl⟩, h2⟩
                have := (ihx (fun a ha => ih a (by simp [ha])) lvs).mp h2
                simp_all
              · rintro h
                injection h with h
                injection h with h1 h2
                injection h1 with hk hv
                subst hk hv
                refine ⟨⟨rfl, rfl⟩, ?_⟩
                exact (ihx (fun a ha => ih a (by simp [ha])) lvs).mpr (by rw [h2])
    | none => simp [PyVal.beq]
    | bool b => simp [PyVal.beq]
    | num t => simp [PyVal.beq]
    | str s => simp [PyVal.beq]
    | list ys => simp [PyVal.beq]

instance : DecidableEq PyVal :=
  fun a b => decidable_of_iff (PyVal.beq a b = true) (PyVal.beq_iff a b)

/-- python type name of None -/
def tyNoneName : PyString := [78, 111, 110, 101, 84, 121, 112, 101]
/-- python type name bool -/
def tyBool : PyString := [98, 111, 111, 108]
/-- python type name int -/
def tyInt : PyString := [105, 110, 116]
/-- python type name float -/
def tyFloat : PyString := [102, 108, 111, 97, 116]
/-- python type name str -/
def tyStr : PyString := [115, 116, 114]
/-- python type name list -/
def tyList : PyString := [108, 105, 115, 116]
/-- python type name dict -/
def tyDict : PyString := [100, 105, 99, 116]

/-- token NaN -/
def nanTok : PyString := [78, 97, 78]
/-- token Infinity -/
def infTok : PyString := [73, 110, 102, 105, 110, 105, 116, 121]
/-- token -Infinity -/
def negInfTok : PyString := 45 :: infTok

/-- Whether a numeric token denotes a Python float (rather than int): it is
one of the non-finite constants or contains a dot or an exponent marker. -/
def floatTok (t : PyString) : Bool :=
  t == nanTok || t == infTok || t == negInfTok ||
    t.contains 46 || t.contains 101 || t.contains 69

/-- Model of type(v).__name__ for the embedded Python values. -/
def typeName : PyVal → PyString
  | .none => tyNoneName
  | .bool _ => tyBool
  | .num t => if floatTok t then tyFloat else tyInt
  | .str _ => tyStr
  | .list _ => tyList
  | .dict _ => tyDict

example : pystr "int" = tyInt := by decide
example : pystr "NaN" = nanTok := by decide

/-! ## Model of Python json.loads over code-point strings -/

/-- JSON whitespace accepted by the Python json scanner: space, tab,
newline, carriage return. -/
def wsChar (c : Nat) : Bool := c == 32 || c == 9 || c == 10 || c == 13

/-- Skip leading JSON whitespace. -/
def skipWs (cs : PyString) : PyString := cs.dropWhile wsChar

/-- ASCII decimal digit. -/
def isDigitC (c : Nat) : Bool := 48 ≤ c && c ≤ 57

/-- Hexadecimal digit value. -/
def hexVal (c : Nat) : Option Nat :=
  if 48 ≤ c && c ≤ 57 then some (c - 48)
  else if 97 ≤ c && c ≤ 102 then some (c - 87)
  else if 65 ≤ c && c ≤ 70 then some (c - 55)
  else Option.none

/-- Value of a four-hex-digit escape. -/
def hex4 (h1 h2 h3 h4 : Nat) : Option Nat :=
  match hexVal h1, hexVal h2, hexVal h3, hexVal h4 with
  | some v1, some v2, some v3, some v4 => some (((v1 * 16 + v2) * 16 + v3) * 16 + v4)
  | _, _, _, _ => Option.none

/-- Scanner for the body of a JSON string (after the opening quote), the
model of py_scanstring with strict=True: backslash escapes, four-hex-digit
unicode escapes with surrogate-pair combination, rejection of raw control
characters.  Returns the decoded content and the input after the closing
quote.  The fuel (first argument) is an artifact of the embedding; each
step consumes at least one input character, so input length plus one is
always enough. -/
def escSimple (e : Nat) : Option Nat :=
  if e == 34 then some 34
  else if e == 92 then some 92
  else if e == 47 then some 47
  else if e == 98 then some 8
  else if e == 102 then some 12
  else if e == 110 then some 10
  else if e == 114 then some 13
  else if e == 116 then some 9
  else Option.none

def scanStringAux : Nat → PyString → Option (PyString × PyString)
  | 0, _ => Option.none
  | Nat.succ f, cs =>
    match cs with
    | [] => Option.none
    | c :: rest =>
      if c == 34 then some ([], rest)
      else if c == 92 then
        match rest with
        | [] => Option.none
        | e :: r2 =>
          if e == 117 then
            match r2 with
            | h1 :: h2 :: h3 :: h4 :: r3 =>
              match hex4 h1 h2 h3 h4 with
              | Option.none => Option.none
              | some n1 =>
                if 0xD800 ≤ n1 && n1 ≤ 0xDBFF then
                  match r3 with
                  | 92 :: 117 :: g1 :: g2 :: g3 :: g4 :: r5 =>
                    match hex4 g1 g2 g3 g4 with
                    | Option.none => Option.none
                    | some n2 =>
                      if 0xDC00 ≤ n2 && n2 ≤ 0xDFFF then
                        (scanStringAux f r5).map
                          (fun p => ((0x10000 + (n1 - 0xD800) * 0x400 + (n2 - 0xDC00)) :: p.1, p.2))
                      else
                        (scanStringAux f r3).map (fun p => (n1 :: p.1, p.2))
                  | 92 :: 117 :: _ => Option.none
                  | _ => (scanStringAux f r3).map (fun p => (n1 :: p.1, p.2))
                else (scanStringAux f r3).map (fun p => (n1 :: p.1, p.2))
            | _ => Option.none
          else
            match escSimple e with
            | some d => (scanStringAux f r2).map (fun p => (d :: p.1, p.2))
            | Option.none => Option.none
      else if c < 32 then Option.none
      else (scanStringAux f rest).map (fun p => (c :: p.1, p.2))

/-- Scan a JSON string body, supplying sufficient fuel. -/
def scanString (cs : PyString) : Option (PyString × PyString) :=
  scanStringAux (cs.length + 1) cs

/-- Integer part of a JSON number: a single 0, or a nonzero digit followed
by digits. -/
def scanIntPart : PyString → Option (PyString × PyString)
  | [] => Option.none
  | c :: rest =>
    if c == 48 then some ([48], rest)
    else if 49 ≤ c && c ≤ 57 then
      let p := rest.span isDigitC
      some (c :: p.1, p.2)
    else Option.none

/-- Optional fraction part: a dot followed by at least one digit, else
nothing consumed. -/
def scanFracPart : PyString → PyString × PyString
  | [] => ([], [])
  | c :: rest =>
    if c == 46 then
      let p := rest.span isDigitC
      if p.1.isEmpty then ([], c :: rest) else (46 :: p.1, p.2)
    else ([], c :: rest)

/-- Optional exponent part: e or E, an optional sign, then at least one
digit, else nothing consumed. -/
def scanExpPart : PyString → PyString × PyString
  | [] => ([], [])
  | c :: rest =>
    if c == 101 || c == 69 then
      match rest with
      | s :: r2 =>
        if s == 43 || s == 45 then
          let p := r2.span isDigitC
          if p.1.isEmpty then ([], c :: rest) else (c :: s :: p.1, p.2)
        else
          let p := rest.span isDigitC
          if p.1.isEmpty then ([], c :: rest) else (c :: p.1, p.2)
      | [] => ([], [c])
    else ([], c :: rest)

/-- Scanner for a finite JSON number, the model of the NUMBER_RE regular
expression of the Python json module.  Returns the matched token and the
remaining input. -/
def scanNum : PyString → Option (PyString × PyString)
  | [] => Option.none
  | c :: rest =>
    if c == 45 then
      match scanIntPart rest with
      | some (ip, r1) =>
        let f := scanFracPart r1
        let e := scanExpPart f.2
        some (45 :: (ip ++ f.1 ++ e.1), e.2)
      | Option.none => Option.none
    else
      match scanIntPart (c :: rest) with
      | some (ip, r1) =>
        let f := scanFracPart r1
        let e := scanExpPart f.2
        some (ip ++ f.1 ++ e.1, e.2)
      | Option.none => Option.none

/-- Consume an exact literal, returning the remaining input. -/
def dropLit : PyString → PyString → Option PyString
  | [], cs => some cs
  | l :: ls, c :: cs => if c == l then dropLit ls cs else Option.none
  | _ :: _, [] => Option.none

/-- Python dict insertion semantics: a repeated key keeps its first
position and takes the latest value; a new key is appended. -/
def pyDictInsert {α : Type} (acc : List (PyString × α)) (k : PyString) (v : α) :
    List (PyString × α) :=
  if acc.any (fun kv => kv.1 == k) then
    acc.map (fun kv => if kv.1 == k then (kv.1, v) else kv)
  else acc ++ [(k, v)]

/-- Build a Python dict from parsed key-value pairs (the dict(pairs) call
of the json decoder). -/
def dictFinish (pairs : List (PyString × PyVal)) : List (PyString × PyVal) :=
  pairs.foldl (fun acc kv => pyDictInsert acc kv.1 kv.2) []

mutual

/-- Fueled model of the Python json scanner for a single JSON value.
Dispatches on the first character exactly as the CPython scanner does. -/
def parseValue : Nat → PyString → Option (PyVal × PyString)
  | 0, _ => Option.none
  | Nat.succ f, cs =>
    match cs with
    | [] => Option.none
    | c :: rest =>
      if c == 34 then
        match scanString rest with
        | some (s, r) => some (.str s, r)
        | Option.none => Option.none
      else if c == 123 then
        match skipWs rest with
        | 125 :: r2 => some (.dict [], r2)
        | cs2 =>
          match parseObjectLoop f cs2 [] with
          | some (pairs, r2) => some (.dict (dictFinish pairs), r2)
          | Option.none => Option.none
      else if c == 91 then
        match skipWs rest with
        | 93 :: r2 => some (.list [], r2)
        | cs2 =>
          match parseArrayLoop f cs2 [] with
          | some (vs, r2) => some (.list vs, r2)
          | Option.none => Option.none
      else if c == 110 then (dropLit [117, 108, 108] rest).map (fun r => (.none, r))
      else if c == 116 then (dropLit [114, 117, 101] rest).map (fun r => (.bool true, r))
      else if c == 102 then (dropLit [97, 108, 115, 101] rest).map (fun r => (.bool false, r))
      else if c == 78 then (dropLit [97, 78] rest).map (fun r => (.num nanTok, r))
      else if c == 73 then
        (dropLit [110, 102, 105, 110, 105, 116, 121] rest).map (fun r => (.num infTok, r))
      else if c == 45 then
        match dropLit infTok rest with
        | some r => some (.num negInfTok, r)
        | Option.none => (scanNum cs).map (fun p => (.num p.1, p.2))
      else (scanNum cs).map (fun p => (.num p.1, p.2))

/-- Loop over the elements of a JSON array after the opening bracket (and
any leading whitespace), for a non-empty array. -/
def parseArrayLoop : Nat → PyString → List PyVal → Option (List PyVal × PyString)
  | 0, _, _ => Option.none
  | Nat.succ f, cs, acc =>
    match parseValue f cs with
    | Option.none => Option.none
    | some (v, r) =>
      match skipWs r with
      | 93 :: r2 => some (acc ++ [v], r2)
      | 44 :: r2 => parseArrayLoop f (skipWs r2) (acc ++ [v])
      | _ => Option.none

/-- Loop over the members of a JSON object after the opening brace (and any
leading whitespace), for a non-empty object. -/
def parseObjectLoop : Nat → PyString → List (PyString × PyVal) →
    Option (List (PyString × PyVal) × PyString)
  | 0, _, _ => Option.none
  | Nat.succ f, cs, acc =>
    match cs with
    | 34 :: r0 =>
      match scanString r0 with
      | Option.none => Option.none
      | some (k, r1) =>
        match skipWs r1 with
        | 58 :: r2 =>
          match parseValue f (skipWs r2) with
          | Option.none => Option.none
          | some (v, r3) =>
            match skipWs r3 with
            | 125 :: r4 => some (acc ++ [(k, v)], r4)
            | 44 :: r4 => parseObjectLoop f (skipWs r4) (acc ++ [(k, v)])
            | _ => Option.none
        | _ => Option.none
    | _ => Option.none

end

/-- Model of json.loads: parse one value and require only whitespace
afterwards.  The fuel is an artifact of the embedding; it is large enough
for every input (each unit of recursion consumes input). -/
def loads (s : PyString) : Option PyVal :=
  match parseValue (2 * s.length + 4) (skipWs s) with
  | some (v, r) => if (skipWs r).isEmpty then some v else Option.none
  | Option.none => Option.none

example : loads (pystr "[1, 2]") = some (.list [.num [49], .num [50]]) := by decide
example : loads (pystr " \x7b\"a\": null\x7d ") = some (.dict [([97], .none)]) := by decide
example : loads (pystr "/tmp/missing.csv") = Option.none := by decide
example : loads (pystr "-Infinity") = some (.num negInfTok) := by decide
example : loads (pystr "1.5e3") = some (.num (pystr "1.5e3")) := by decide
example : loads (pystr "01") = Option.none := by decide
example : loads (pystr "\"a\\u00e9b\"") = some (.str [97, 0xE9, 98]) := by decide

/-! ## Model of the pandas DataFrame constructions used by the normalizer -/

/-- The canonical tabular value: named columns and rows aligned with them.
A missing cell (a key absent from a row record) is PyVal.none, modelling
the null/NaN fill of pandas. -/
structure DataFrame where
  cols : List PyString
  rows : List (List PyVal)
deriving DecidableEq, Repr

/-- First-seen-order union of the keys of a list of records, the column
order pandas uses for a list of dicts. -/
def keyUnion (recs : List (List (PyString × PyVal))) : List PyString :=
  recs.foldl
    (fun acc r =>
      r.foldl (fun acc2 kv => if acc2.contains kv.1 then acc2 else acc2 ++ [kv.1]) acc)
    []

/-- Python dict lookup with null default, used to fill a row cell. -/
def recGet (r : List (PyString × PyVal)) (k : PyString) : PyVal :=
  match r.find? (fun kv => kv.1 == k) with
  | some kv => kv.2
  | Option.none => PyVal.none

/-- pandas DataFrame from a list of record dicts: columns are the
first-seen union of keys, each record is one row, missing keys are null. -/
def dfFromRecords (recs : List (List (PyString × PyVal))) : DataFrame :=
  let cols := keyUnion recs
  ⟨cols, recs.map (fun r => cols.map (fun c => recGet r c))⟩

/-- Whether all columns have one common length. -/
def sameLengths : List (List PyVal) → Bool
  | [] => true
  | l :: rest => rest.all (fun m => m.length == l.length)

/-- pandas DataFrame from equal-length column lists: one column per key,
rows by transposition. -/
def dfFromColumns (cols : List (PyString × List PyVal)) : DataFrame :=
  ⟨cols.map Prod.fst,
   (List.range (cols.headD ([], [])).2.length).map
     (fun i => cols.map (fun c => c.2.getD i PyVal.none))⟩

/-! ## Embedding of json_to_dataframe (src/datawrapper_mcp/utils.py) -/

/-- Error taxonomy of the normalizer.  Each constructor corresponds to one
distinct raise site in json_to_dataframe (or to an exception propagating
through it). -/
inductive DfErr where
  /-- Unsupported file type error for an existing file that is neither
  .csv nor .json (the ValueError raised at the file-extension dispatch). -/
  | unsupportedFileType : PyString → DfErr
  /-- A json.JSONDecodeError propagating uncaught out of json.load on the
  content of an existing .json file. -/
  | jsonDecodeError : DfErr
  /-- The CSV-string rejection (raw delimited text is not accepted). -/
  | unsupportedRawDelimited : DfErr
  /-- The Invalid JSON string ValueError raised when the input text parses
  as neither a file path nor JSON. -/
  | malformedEncoding : DfErr
  /-- Empty data list. -/
  | emptyList : DfErr
  /-- Empty data dict. -/
  | emptyDict : DfErr
  /-- List format must contain dictionaries; carries the type name the
  message reports (the type of the first list element in the code). -/
  | nonRecordElement : PyString → DfErr
  /-- Dict format must have lists as values; carries the reported value
  type names. -/
  | nonArrayColumn : List PyString → DfErr
  /-- The pandas ValueError (all arrays must be of the same length) raised
  by the DataFrame constructor on unequal column lengths. -/
  | columnLengthMismatch : DfErr
  /-- Unsupported data type (the final fallback branch). -/
  | unsupportedShape : PyString → DfErr
  /-- Fuel exhaustion of the embedding, modelling a Python RecursionError
  on unboundedly self-referential file contents. -/
  | recursionLimit : DfErr
deriving DecidableEq, Repr

deriving instance DecidableEq for Except

abbrev DfResult := Except DfErr DataFrame

/-- A filesystem snapshot: pairs of path and file content.  Models
os.path.isfile and reading for the paths the normalizer touches. -/
abbrev Fs := List (PyString × PyString)

/-- Content of a path if the path names an existing file. -/
def fsRead (fs : Fs) (p : PyString) : Option PyString :=
  (fs.find? (fun e => e.1 == p)).map Prod.snd

/-- Suffix of .csv -/
def dotCsv : PyString := [46, 99, 115, 118]
/-- Suffix of .json -/
def dotJson : PyString := [46, 106, 115, 111, 110]

/-- Python str.strip() restricted to the whitespace characters that can
occur in the JSON-or-CSV textual inputs this function receives (space,
tab, newline, carriage return, vertical tab, form feed). -/
def pyStrip (s : PyString) : PyString :=
  ((s.dropWhile stripWs).reverse.dropWhile stripWs).reverse
where
  stripWs (c : Nat) : Bool := c == 32 || c == 9 || c == 10 || c == 13 || c == 11 || c == 12

/-- Whether a string starts with an open bracket or an open brace, the
startswith check of the CSV-content heuristic. -/
def startsWithOpen : PyString → Bool
  | c :: _ => c == 91 || c == 123
  | [] => false

/-- The CSV-content heuristic of json_to_dataframe: the string contains a
newline and a comma and its stripped form does not start with a bracket
or a brace. -/
def looksLikeCsv (s : PyString) : Bool :=
  s.contains 10 && s.contains 44 && !(startsWithOpen (pyStrip s))

/-- Extract the record of a dict value (total helper, used only under the
all-dicts guard). -/
def recOf : PyVal → List (PyString × PyVal)
  | .dict kvs => kvs
  | _ => []

/-- Extract the elements of a list value (total helper, used only under
the all-lists guard). -/
def listOf : PyVal → List PyVal
  | .list xs => xs
  | _ => []

/-- Whether a value is a Python dict. -/
def isDictVal : PyVal → Bool
  | .dict _ => true
  | _ => false

/-- Whether a value is a Python list. -/
def isListVal : PyVal → Bool
  | .list _ => true
  | _ => false

/-- The list/dict/fallback stage of json_to_dataframe, applied to the
input value itself when it is not a string, or to the parsed value after
the JSON-string stage. -/
def handleParsed : PyVal → DfResult
  | .list [] => .error .emptyList
  | .list (x :: xs) =>
    if (x :: xs).all isDictVal then
      .ok (dfFromRecords ((x :: xs).map recOf))
    else
      .error (.nonRecordElement (typeName x))
  | .dict [] => .error .emptyDict
  | .dict (kv :: kvs) =>
    if (kv :: kvs).all (fun e => isListVal e.2) then
      let cols := (kv :: kvs).map (fun e => (e.1, listOf e.2))
      if sameLengths (cols.map Prod.snd) then
        .ok (dfFromColumns cols)
      else
        .error .columnLengthMismatch
    else
      .error (.nonArrayColumn ((kv :: kvs).map (fun e => typeName e.2)))
  | v => .error (.unsupportedShape (typeName v))

/-- Embedding of json_to_dataframe.  The external collaborators are
parameters: fs models os.path.isfile plus open/read, readCsv models
pd.read_csv applied to a path.  The fuel bounds the file-content
recursion, which the source bounds only by the Python recursion limit;
on non-file inputs the result never depends on the fuel. -/
def json_to_dataframe (fs : Fs) (readCsv : PyString → DfResult) :
    Nat → PyVal → DfResult
  | fuel, .str s =>
    match fsRead fs s with
    | some content =>
      if dotCsv.isSuffixOf s then readCsv s
      else if dotJson.isSuffixOf s then
        match loads content with
        | Option.none => .error .jsonDecodeError
        | some fileData =>
          match fuel with
          | 0 => .error .recursionLimit
          | Nat.succ n => json_to_dataframe fs readCsv n fileData
      else .error (.unsupportedFileType s)
    | Option.none =>
      if looksLikeCsv s then .error .unsupportedRawDelimited
      else
        match loads s with
        | Option.none => .error .malformedEncoding
        | some parsed => handleParsed parsed
  | _, .list xs => handleParsed (.list xs)
  | _, .dict kvs => handleParsed (.dict kvs)
  | _, v => handleParsed v

/-- A stub for the external pd.read_csv collaborator, used in closed
statements whose control flow never reaches the CSV branch. -/
def rcStub : PyString → DfResult := fun _ => .error .recursionLimit

example :
    json_to_dataframe [] rcStub 1
      (.list [.dict [(pystr "year", .num (pystr "2020")), (pystr "value", .num (pystr "100"))],
              .dict [(pystr "year", .num (pystr "2021")), (pystr "value", .num (pystr "150"))]]) =
    .ok ⟨[pystr "year", pystr "value"],
         [[.num (pystr "2020"), .num (pystr "100")],
          [.num (pystr "2021"), .num (pystr "150")]]⟩ := by decide

example :
    json_to_dataframe [] rcStub 1
      (.dict [(pystr "year", .list [.num (pystr "2020"), .num (pystr "2021")]),
              (pystr "value", .list [.num (pystr "100"), .num (pystr "150")])]) =
    .ok ⟨[pystr "year", pystr "value"],
         [[.num (pystr "2020"), .num (pystr "100")],
          [.num (pystr "2021"), .num (pystr "150")]]⟩ := by decide

example :
    json_to_dataframe [] rcStub 1
      (.dict [(pystr "year", .list [.num (pystr "2020")]),
              (pystr "value", .list [.num (pystr "100"), .num (pystr "150")])]) =
    .error .columnLengthMismatch := by decide

example :
    json_to_dataframe [] rcStub 1 (.str (pystr "/tmp/missing.csv")) =
    .error .malformedEncoding := by decide

example :
    json_to_dataframe [] rcStub 1 (.str (pystr "a,b\n1,2")) =
    .error .unsupportedRawDelimited := by decide

/-! ## Embedding of the configuration-update path
(src/datawrapper_mcp/handlers/update.py, chart_config branch) -/

/-- One entry of chart.model_fields: the canonical field name and the
optional wire-level alias recorded in the field metadata. -/
structure ModelField where
  name : PyString
  aliasName : Option PyString
deriving DecidableEq, Repr

/-- The alias_to_field mapping built by update_chart: for each field, in
order, insert name maps-to name, then alias maps-to name when an alias is
present.  Python dict insertion semantics (pyDictInsert). -/
def alias_to_field (fields : List ModelField) : List (PyString × PyString) :=
  fields.foldl
    (fun acc f =>
      let acc1 := pyDictInsert acc f.name f.name
      match f.aliasName with
      | some a => pyDictInsert acc1 a f.name
      | Option.none => acc1)
    []

/-- Lookup in a string-valued Python dict (dict.get with default none). -/
def strDictGet (d : List (PyString × PyString)) (k : PyString) : Option PyString :=
  (d.find? (fun kv => kv.1 == k)).map Prod.snd

/-- The resolution of one patch key: alias_to_field.get(key, key). -/
def resolveKey (fields : List ModelField) (k : PyString) : PyString :=
  (strDictGet (alias_to_field fields) k).getD k

/-- The external pydantic validate_assignment collaborator: given the
attribute name and the assigned value, either the stored (possibly
coerced) value, or none when the assignment raises a validation error
(including the unknown-attribute error pydantic raises for names that are
not fields). -/
abbrev Assign := PyString → PyVal → Option PyVal

/-- The live chart instance: its attribute map. -/
structure ChartState where
  attrs : List (PyString × PyVal)
deriving DecidableEq, Repr

/-- Attribute read (getattr), null when absent. -/
def getAttr (st : ChartState) (k : PyString) : PyVal :=
  recGet st.attrs k

/-- The chart_config loop of update_chart: resolve each patch key through
alias_to_field, then setattr the resolved name with the patch value.  On
the first assignment that raises, the except branch returns the
Invalid-chart-configuration response (modelled as Option.none); otherwise
the final chart state and the ordered list of attribute names written. -/
def applyChartConfig (assign : Assign) (fields : List ModelField)
    (st : ChartState) (patch : List (PyString × PyVal)) :
    Option (ChartState × List PyString) :=
  match patch with
  | [] => some (st, [])
  | (k, v) :: rest =>
    let fname := resolveKey fields k
    match assign fname v with
    | Option.none => Option.none
    | some v2 =>
      match applyChartConfig assign fields ⟨pyDictInsert st.attrs fname v2⟩ rest with
      | some (st2, written) => some (st2, fname :: written)
      | Option.none => Option.none

/-- A permissive external validator: every assignment to a known field
name is accepted and stored unchanged, any other name raises.  This is
the weakest behavior consistent with pydantic validate_assignment. -/
def permissiveAssign (fields : List ModelField) : Assign :=
  fun k v => if fields.any (fun f => f.name == k) then some v else Option.none

/-- Field name chart_id -/
def fChartId : PyString := pystr "chart_id"
/-- Field name chart_type -/
def fChartType : PyString := pystr "chart_type"
/-- Field name data -/
def fData : PyString := pystr "data"
/-- Field name title -/
def fTitle : PyString := pystr "title"

/-- A minimal concrete chart model mirroring the fields the tests use. -/
def demoFields : List ModelField :=
  [⟨fChartId, Option.none⟩, ⟨fChartType, Option.none⟩, ⟨fTitle, Option.none⟩,
   ⟨fData, Option.none⟩]

/-- A concrete current chart: a column chart. -/
def demoChart : ChartState :=
  ⟨[(fChartId, .str (pystr "test123")),
    (fChartType, .str (pystr "column-chart")),
    (fTitle, .str (pystr "Original Title"))]⟩

example :
    applyChartConfig (permissiveAssign demoFields) demoFields demoChart
      [(fTitle, .str (pystr "New Title"))] =
    some (⟨[(fChartId, .str (pystr "test123")),
            (fChartType, .str (pystr "column-chart")),
            (fTitle, .str (pystr "New Title"))]⟩, [fTitle]) := by decide

/-! ## Generic list lemmas used throughout -/

theorem span_append_of_nomatch {p : Nat → Bool} :
    ∀ (a b : PyString), (∀ x ∈ a, p x = true) →
    (b = [] ∨ ∃ c bs, b = c :: bs ∧ p c = false) →
    (a ++ b).span p = (a, b) := by
  intro a
  induction a with
  | nil =>
    intro b _ hb
    rcases hb with rfl | ⟨c, bs, rfl, hc⟩
    · simp [List.span_eq_take_drop]
    · simp [List.span_eq_take_drop, List.takeWhile, List.dropWhile, hc]
  | cons x xs ih =>
    intro b ha hb
    have hx : p x = true := ha x (by simp)
    have := ih b (fun y hy => ha y (by simp [hy])) hb
    simp only [List.span_eq_take_drop, Prod.mk.injEq] at this ⊢
    simp [List.takeWhile, List.dropWhile, hx]
    exact this

theorem dropWhile_append_of_nomatch {p : Nat → Bool} :
    ∀ (a b : PyString), (∀ x ∈ a, p x = true) →
    (b = [] ∨ ∃ c bs, b = c :: bs ∧ p c = false) →
    (a ++ b).dropWhile p = b := by
  intro a b ha hb
  have := span_append_of_nomatch a b ha hb
  simp only [List.span_eq_take_drop] at this
  exact congrArg Prod.snd this

theorem skipWs_of_head_not_ws {c : Nat} {t : PyString} (h : wsChar c = false) :
    skipWs (c :: t) = c :: t := by
  simp [skipWs, List.dropWhile, h]

theorem skipWs_decomp (cs : PyString) :
    ∃ w, cs = w ++ skipWs cs ∧ ∀ c ∈ w, wsChar c = true := by
  refine ⟨cs.takeWhile wsChar, ?_, ?_⟩
  · simp [skipWs]
  · intro c hc
    exact List.mem_takeWhile_imp hc

/-! ## The textual JSON encoding (serialization) of values and tables.
The serializer is modelled from the spec: the round-trip property of
section 8 serializes the canonical table back to its textual JSON
encoding; the repository itself ships no serializer under src, so this
follows the conventions of the json.dumps collaborator with
ensure_ascii=False (escape only the quote, the backslash and control
characters). -/

/-- Hex digit character (lowercase). -/
def hexDigit (n : Nat) : Nat := if n < 10 then 48 + n else 87 + n

/-- Four-hex-digit rendering of a code point below 0x10000. -/
def hexDigits4 (c : Nat) : PyString :=
  [hexDigit (c / 4096 % 16), hexDigit (c / 256 % 16), hexDigit (c / 16 % 16),
   hexDigit (c % 16)]

/-- Escape one character of a JSON string: quote and backslash get a
backslash escape, control characters a unicode escape, everything else is
emitted raw. -/
def escChar (c : Nat) : PyString :=
  if c == 34 then [92, 34]
  else if c == 92 then [92, 92]
  else if c < 32 then 92 :: (117 :: hexDigits4 c)
  else [c]

/-- Emit a JSON string literal for the given content. -/
def emitStr (s : PyString) : PyString :=
  34 :: ((s.flatMap escChar) ++ [34])

mutual

/-- Emit the textual JSON encoding of a value. -/
def emitVal : PyVal → PyString
  | .none => [110, 117, 108, 108]
  | .bool true => [116, 114, 117, 101]
  | .bool false => [102, 97, 108, 115, 101]
  | .num t => t
  | .str s => emitStr s
  | .list [] => [91, 93]
  | .list (x :: xs) => 91 :: (emitVal x ++ (emitListRest xs ++ [93]))
  | .dict [] => [123, 125]
  | .dict ((k, v) :: kvs) =>
      123 :: (emitStr k ++ (58 :: (emitVal v ++ (emitDictRest kvs ++ [125]))))

/-- Emit the remaining elements of a non-empty JSON array, each preceded
by a comma. -/
def emitListRest : List PyVal → PyString
  | [] => []
  | x :: xs => 44 :: (emitVal x ++ emitListRest xs)

/-- Emit the remaining members of a non-empty JSON object, each preceded
by a comma. -/
def emitDictRest : List (PyString × PyVal) → PyString
  | [] => []
  | (k, v) :: kvs => 44 :: (emitStr k ++ (58 :: (emitVal v ++ emitDictRest kvs)))

end

example : emitVal (.list [.num [49], .none]) = pystr "[1,null]" := by decide
example : emitVal (.dict [([97], .str [98])]) = pystr "\x7b\"a\":\"b\"\x7d" := by decide

/-- One row of the record-list encoding of a table. -/
def rowRecord (cols : List PyString) (row : List PyVal) : PyVal :=
  .dict (List.zip cols row)

/-- The record-list value of a table: one dict per row. -/
def recordsVal (df : DataFrame) : PyVal :=
  .list (df.rows.map (rowRecord df.cols))

/-- Modelled from the spec: serialize a canonical table to its textual
JSON encoding: the record-list shape, falling back to the column-map
shape for a table with no rows (whose record-list text could not carry
the column names). -/
def serialize (df : DataFrame) : PyString :=
  if df.rows.isEmpty then
    emitVal (.dict (df.cols.map (fun c => (c, PyVal.list []))))
  else emitVal (recordsVal df)

/-! ## Well-formedness: the values representable as actual Python data -/

/-- A well-formed finite numeric token: the number scanner accepts it and
consumes it entirely. -/
def wfNum (t : PyString) : Bool :=
  match scanNum t with
  | some (_, r) => r.isEmpty
  | Option.none => false

/-- A well-formed numeric token: finite numeral or one of the non-finite
constants. -/
def wfNumTok (t : PyString) : Bool :=
  t == nanTok || t == infTok || t == negInfTok || wfNum t

/-- No duplicate keys in a key-value list (Python dicts cannot hold
duplicates). -/
def nodupKeys : List (PyString × PyVal) → Bool
  | [] => true
  | kv :: rest => !(rest.any (fun kv2 => kv2.1 == kv.1)) && nodupKeys rest

mutual

/-- Well-formedness of an embedded value: every numeric token is a valid
literal and every dict has no duplicate keys.  Every value produced by
the json.loads model is well-formed, and every value denoting actual
Python data is well-formed. -/
def wfVal : PyVal → Bool
  | .none => true
  | .bool _ => true
  | .num t => wfNumTok t
  | .str _ => true
  | .list xs => wfValList xs
  | .dict kvs => nodupKeys kvs && wfValDict kvs

/-- Well-formedness of every element. -/
def wfValList : List PyVal → Bool
  | [] => true
  | x :: xs => wfVal x && wfValList xs

/-- Well-formedness of every dict value. -/
def wfValDict : List (PyString × PyVal) → Bool
  | [] => true
  | (_, v) :: kvs => wfVal v && wfValDict kvs

end

/-- No duplicates in a list of strings. -/
def nodupStrs : List PyString → Bool
  | [] => true
  | s :: rest => !(rest.contains s) && nodupStrs rest

/-- Well-formedness of a table: distinct column names, rows aligned with
the columns, well-formed cells. -/
def wfDf (df : DataFrame) : Bool :=
  nodupStrs df.cols &&
    df.rows.all (fun r => r.length == df.cols.length && r.all wfVal)

mutual

/-- Fuel sufficient for the value parser on the emitted encoding. -/
def fuelNeeded : PyVal → Nat
  | .none => 1
  | .bool _ => 1
  | .num _ => 1
  | .str _ => 1
  | .list xs => 1 + fuelItems xs
  | .dict kvs => 1 + fuelPairs kvs

/-- Fuel sufficient for the array loop on the emitted elements. -/
def fuelItems : List PyVal → Nat
  | [] => 0
  | x :: xs => 1 + fuelNeeded x + fuelItems xs

/-- Fuel sufficient for the object loop on the emitted members. -/
def fuelPairs : List (PyString × PyVal) → Nat
  | [] => 0
  | (_, v) :: kvs => 1 + fuelNeeded v + fuelPairs kvs

end

/-! ## Round trip of the string scanner over the emitter -/

theorem hex4_hexDigits4 : ∀ c < 32,
    hex4 (hexDigit (c / 4096 % 16)) (hexDigit (c / 256 % 16))
      (hexDigit (c / 16 % 16)) (hexDigit (c % 16)) = some c := by decide

theorem scanStringAux_emit :
    ∀ (s : PyString) (f : Nat) (rest : PyString), s.length < f →
    scanStringAux f ((s.flatMap escChar) ++ (34 :: rest)) = some (s, rest) := by
  intro s
  induction s with
  | nil =>
    intro f rest hf
    cases f with
    | zero => omega
    | succ f => simp [scanStringAux]
  | cons c s ih =>
    intro f rest hf
    cases f with
    | zero => omega
    | succ f =>
      have hle : s.length < f := by
        simp [List.length_cons] at hf
        omega
      by_cases h34 : c = 34
      · subst h34
        simp [escChar, scanStringAux, escSimple, ih f rest hle]
      · by_cases h92 : c = 92
        · subst h92
          simp [escChar, scanStringAux, escSimple, ih f rest hle]
        · by_cases hctl : c < 32
          · have hx := hex4_hexDigits4 c hctl
            have hd1 : (0xD800 ≤ c && c ≤ 0xDBFF) = false := by
              have h2 : ¬ (0xD800 ≤ c) := by omega
              simp [h2]
            simp only [List.flatMap_cons, List.append_assoc, escChar]
            rw [if_neg (by simp [h34]), if_neg (by simp [h92]), if_pos (by simp [hctl])]
            simp [hexDigits4, scanStringAux, hx, hd1, ih f rest hle]
          · have hge : ¬ (c < 32) := hctl
            simp only [List.flatMap_cons, List.append_assoc, escChar]
            rw [if_neg (by simp [h34]), if_neg (by simp [h92]), if_neg (by simp [hge])]
            simp only [List.singleton_append, List.cons_append, scanStringAux]
            rw [if_neg (by simp [h34]), if_neg (by simp [h92]), if_neg hge]
            simp [ih f rest hle]

/-! ## Structure of JSON number tokens -/

/-- Shape of the integer part accepted by the scanner. -/
def WfInt (ip : PyString) : Prop :=
  ip = [48] ∨ ∃ c ds, ip = c :: ds ∧ 49 ≤ c ∧ c ≤ 57 ∧ ∀ d ∈ ds, isDigitC d = true

/-- Shape of the (possibly absent) fraction part. -/
def WfFrac (fp : PyString) : Prop :=
  fp = [] ∨ ∃ ds, fp = 46 :: ds ∧ ds ≠ [] ∧ ∀ d ∈ ds, isDigitC d = true

/-- Shape of the (possibly absent) exponent part. -/
def WfExp (ep : PyString) : Prop :=
  ep = [] ∨ ∃ e sg ds, ep = e :: (sg ++ ds) ∧ (e = 101 ∨ e = 69) ∧
    (sg = [] ∨ sg = [43] ∨ sg = [45]) ∧ ds ≠ [] ∧ ∀ d ∈ ds, isDigitC d = true

/-- Full shape of a finite numeric token. -/
def NumShape (t : PyString) : Prop :=
  ∃ sg ip fp ep, t = sg ++ (ip ++ (fp ++ ep)) ∧ (sg = [] ∨ sg = [45]) ∧
    WfInt ip ∧ WfFrac fp ∧ WfExp ep

theorem dropWhile_shape (p : Nat → Bool) (l : PyString) :
    l.dropWhile p = [] ∨ ∃ c cs, l.dropWhile p = c :: cs ∧ p c = false := by
  induction l with
  | nil => left; rfl
  | cons x xs ih =>
    by_cases hx : p x = true
    · simpa [List.dropWhile_cons, hx] using ih
    · right
      refine ⟨x, xs, ?_, by simpa using hx⟩
      simp [List.dropWhile_cons, hx]

theorem scanIntPart_inv {cs ip r : PyString} (h : scanIntPart cs = some (ip, r)) :
    cs = ip ++ r ∧ WfInt ip := by
  cases cs with
  | nil => simp [scanIntPart] at h
  | cons c rest =>
    simp only [scanIntPart] at h
    by_cases h48 : c = 48
    · subst h48
      simp at h
      obtain ⟨h1, h2⟩ := h
      subst h1 h2
      exact ⟨rfl, Or.inl rfl⟩
    · rw [if_neg (by simpa using h48)] at h
      by_cases hd : (49 ≤ c && c ≤ 57) = true
      · rw [if_pos hd] at h
        simp only [Option.some.injEq, Prod.mk.injEq] at h
        obtain ⟨h1, h2⟩ := h
        subst h1 h2
        simp only [Bool.and_eq_true, decide_eq_true_eq] at hd
        constructor
        · have := List.takeWhile_append_dropWhile (p := isDigitC) (l := rest)
          simp [List.span_eq_take_drop, this]
        · right
          exact ⟨c, _, rfl, hd.1, hd.2, fun d hdm => List.mem_takeWhile_imp
            (by simpa [List.span_eq_take_drop] using hdm)⟩
      · rw [if_neg hd] at h
        cases h

theorem scanFracPart_inv {cs fp r : PyString} (h : scanFracPart cs = (fp, r)) :
    cs = fp ++ r ∧ WfFrac fp := by
  cases cs with
  | nil =>
    simp only [scanFracPart, Prod.mk.injEq] at h
    obtain ⟨h1, h2⟩ := h
    subst h1 h2
    exact ⟨rfl, Or.inl rfl⟩
  | cons c rest =>
    simp only [scanFracPart] at h
    by_cases h46 : c = 46
    · subst h46
      rw [if_pos (by simp)] at h
      by_cases he : (rest.span isDigitC).1.isEmpty = true
      · rw [if_pos he] at h
        simp only [Prod.mk.injEq] at h
        obtain ⟨h1, h2⟩ := h
        subst h1 h2
        exact ⟨rfl, Or.inl rfl⟩
      · rw [if_neg he] at h
        simp only [Prod.mk.injEq] at h
        obtain ⟨h1, h2⟩ := h
        subst h1 h2
        constructor
        · have := List.takeWhile_append_dropWhile (p := isDigitC) (l := rest)
          simp [List.span_eq_take_drop, this]
        · right
          refine ⟨_, rfl, ?_, fun d hdm => List.mem_takeWhile_imp
            (by simpa [List.span_eq_take_drop] using hdm)⟩
          simpa [List.span_eq_take_drop, List.isEmpty_iff] using he
    · rw [if_neg (by simpa using h46)] at h
      simp only [Prod.mk.injEq] at h
      obtain ⟨h1, h2⟩ := h
      subst h1 h2
      exact ⟨rfl, Or.inl rfl⟩

theorem scanExpPart_inv {cs ep r : PyString} (h : scanExpPart cs = (ep, r)) :
    cs = ep ++ r ∧ WfExp ep := by
  cases cs with
  | nil =>
    simp only [scanExpPart, Prod.mk.injEq] at h
    obtain ⟨h1, h2⟩ := h
    subst h1 h2
    exact ⟨rfl, Or.inl rfl⟩
  | cons c rest =>
    simp only [scanExpPart] at h
    by_cases he : (c == 101 || c == 69) = true
    · rw [if_pos he] at h
      cases rest with
      | nil =>
        simp only [Prod.mk.injEq] at h
        obtain ⟨h1, h2⟩ := h
        subst h1 h2
        exact ⟨rfl, Or.inl rfl⟩
      | cons s r2 =>
        dsimp only at h
        by_cases hs : (s == 43 || s == 45) = true
        · rw [if_pos hs] at h
          by_cases hemp : (r2.span isDigitC).1.isEmpty = true
          · rw [if_pos hemp] at h
            simp only [Prod.mk.injEq] at h
            obtain ⟨h1, h2⟩ := h
            subst h1 h2
            exact ⟨rfl, Or.inl rfl⟩
          · rw [if_neg hemp] at h
            simp only [Prod.mk.injEq] at h
            obtain ⟨h1, h2⟩ := h
            subst h1 h2
            constructor
            · have := List.takeWhile_append_dropWhile (p := isDigitC) (l := r2)
              simp [List.span_eq_take_drop, this]
            · right
              refine ⟨c, [s], r2.takeWhile isDigitC, by simp [List.span_eq_take_drop],
                by simpa using he, ?_, ?_,
                fun d hdm => List.mem_takeWhile_imp
                  (by simpa [List.span_eq_take_drop] using hdm)⟩
              · rcases Bool.or_eq_true_iff.mp hs with h1 | h1 <;> simp_all
              · simpa [List.span_eq_take_drop, List.isEmpty_iff] using hemp
        · rw [if_neg hs] at h
          by_cases hemp : ((s :: r2).span isDigitC).1.isEmpty = true
          · rw [if_pos hemp] at h
            simp only [Prod.mk.injEq] at h
            obtain ⟨h1, h2⟩ := h
            subst h1 h2
            exact ⟨rfl, Or.inl rfl⟩
          · rw [if_neg hemp] at h
            simp only [Prod.mk.injEq] at h
            obtain ⟨h1, h2⟩ := h
            subst h1 h2
            constructor
            · have := List.takeWhile_append_dropWhile (p := isDigitC) (l := s :: r2)
              simp [List.span_eq_take_drop, this]
            · right
              refine ⟨c, [], (s :: r2).takeWhile isDigitC, by simp [List.span_eq_take_drop],
                by simpa using he, by simp, ?_,
                fun d hdm => List.mem_takeWhile_imp
                  (by simpa [List.span_eq_take_drop] using hdm)⟩
              simpa [List.span_eq_take_drop, List.isEmpty_iff] using hemp
    · rw [if_neg he] at h
      simp only [Prod.mk.injEq] at h
      obtain ⟨h1, h2⟩ := h
      subst h1 h2
      exact ⟨rfl, Or.inl rfl⟩

theorem scanNum_inv {cs t r : PyString} (h : scanNum cs = some (t, r)) :
    cs = t ++ r ∧ NumShape t := by
  cases cs with
  | nil => simp [scanNum] at h
  | cons c rest =>
    simp only [scanNum] at h
    by_cases h45 : c = 45
    · subst h45
      rw [if_pos (by simp)] at h
      rcases hip : scanIntPart rest with _ | ⟨⟨ip, r1⟩⟩
      · rw [hip] at h; cases h
      · rw [hip] at h
        rcases hfp : scanFracPart r1 with ⟨fp, r2⟩
        rcases hep : scanExpPart r2 with ⟨ep, r3⟩
        simp only [hfp, hep, Option.some.injEq, Prod.mk.injEq] at h
        obtain ⟨h1, h2⟩ := h
        subst h1 h2
        obtain ⟨hi1, hi2⟩ := scanIntPart_inv hip
        obtain ⟨hf1, hf2⟩ := scanFracPart_inv hfp
        obtain ⟨he1, he2⟩ := scanExpPart_inv hep
        subst hi1 hf1 he1
        constructor
        · simp
        · exact ⟨[45], ip, fp, ep, by simp, Or.inr rfl, hi2, hf2, he2⟩
    · rw [if_neg (by simpa using h45)] at h
      rcases hip : scanIntPart (c :: rest) with _ | ⟨⟨ip, r1⟩⟩
      · rw [hip] at h; cases h
      · rw [hip] at h
        rcases hfp : scanFracPart r1 with ⟨fp, r2⟩
        rcases hep : scanExpPart r2 with ⟨ep, r3⟩
        simp only [hfp, hep, Option.some.injEq, Prod.mk.injEq] at h
        obtain ⟨h1, h2⟩ := h
        subst h1 h2
        obtain ⟨hi1, hi2⟩ := scanIntPart_inv hip
        obtain ⟨hf1, hf2⟩ := scanFracPart_inv hfp
        obtain ⟨he1, he2⟩ := scanExpPart_inv hep
        rw [hi1, hf1, he1]
        constructor
        · simp
        · exact ⟨[], ip, fp, ep, by simp, Or.inl rfl, hi2, hf2, he2⟩

/-! ## Forward (emission) direction of the number scanner -/

/-- The characters that can follow an emitted value inside an encoding:
comma, close bracket, close brace, or end of input. -/
def SafeR (rest : PyString) : Prop :=
  rest = [] ∨ ∃ c cs, rest = c :: cs ∧ (c = 44 ∨ c = 93 ∨ c = 125)

theorem SafeR.noDigit {rest : PyString} (hr : SafeR rest) :
    rest = [] ∨ ∃ d ds, rest = d :: ds ∧ isDigitC d = false := by
  rcases hr with rfl | ⟨c, cs, rfl, hc⟩
  · exact Or.inl rfl
  · right
    exact ⟨c, cs, rfl, by rcases hc with rfl | rfl | rfl <;> rfl⟩

theorem scanIntPart_emit {ip rest : PyString} (h : WfInt ip)
    (hr : rest = [] ∨ ∃ d ds, rest = d :: ds ∧ isDigitC d = false) :
    scanIntPart (ip ++ rest) = some (ip, rest) := by
  rcases h with rfl | ⟨c, ds, rfl, hc1, hc2, hds⟩
  · simp [scanIntPart]
  · have hsp := span_append_of_nomatch ds rest hds
      (by rcases hr with rfl | ⟨d, ds2, rfl, hd⟩
          · exact Or.inl rfl
          · exact Or.inr ⟨d, ds2, rfl, hd⟩)
    simp only [List.span_eq_take_drop, Prod.mk.injEq] at hsp
    simp only [List.cons_append, scanIntPart]
    rw [if_neg (by simp; omega), if_pos (by simp [hc1, hc2])]
    simp [List.span_eq_take_drop, hsp.1, hsp.2]

theorem scanFracPart_nil {rest : PyString}
    (hr : rest = [] ∨ ∃ d ds, rest = d :: ds ∧ d ≠ 46) :
    scanFracPart rest = ([], rest) := by
  rcases hr with rfl | ⟨d, ds, rfl, hd⟩
  · rfl
  · simp [scanFracPart, hd]

theorem scanFracPart_emit {ds rest : PyString} (hne : ds ≠ [])
    (hds : ∀ d ∈ ds, isDigitC d = true)
    (hr : rest = [] ∨ ∃ d ds2, rest = d :: ds2 ∧ isDigitC d = false) :
    scanFracPart ((46 :: ds) ++ rest) = (46 :: ds, rest) := by
  have hsp := span_append_of_nomatch ds rest hds hr
  simp only [List.span_eq_take_drop, Prod.mk.injEq] at hsp
  have hdse : ds.isEmpty = false := by
    cases ds with
    | nil => exact absurd rfl hne
    | cons d ds2 => rfl
  simp [scanFracPart, List.span_eq_take_drop, hsp.1, hsp.2, hdse]

theorem scanExpPart_nil {rest : PyString}
    (hr : rest = [] ∨ ∃ d ds, rest = d :: ds ∧ d ≠ 101 ∧ d ≠ 69) :
    scanExpPart rest = ([], rest) := by
  rcases hr with rfl | ⟨d, ds, rfl, hd1, hd2⟩
  · rfl
  · simp [scanExpPart, hd1, hd2]

theorem scanExpPart_emit {e : Nat} {sg ds rest : PyString}
    (he : e = 101 ∨ e = 69) (hsg : sg = [] ∨ sg = [43] ∨ sg = [45])
    (hne : ds ≠ []) (hds : ∀ d ∈ ds, isDigitC d = true)
    (hr : rest = [] ∨ ∃ d ds2, rest = d :: ds2 ∧ isDigitC d = false) :
    scanExpPart ((e :: (sg ++ ds)) ++ rest) = (e :: (sg ++ ds), rest) := by
  have hsp := span_append_of_nomatch ds rest hds hr
  simp only [List.span_eq_take_drop, Prod.mk.injEq] at hsp
  have hcond : (e == 101 || e == 69) = true := by rcases he with rfl | rfl <;> rfl
  have hdse : ds.isEmpty = false := by
    cases ds with
    | nil => exact absurd rfl hne
    | cons d ds2 => rfl
  rcases hsg with rfl | rfl | rfl
  · cases ds with
    | nil => exact absurd rfl hne
    | cons d0 ds2 =>
      have hd0 : isDigitC d0 = true := hds d0 (by simp)
      have h43 : (d0 == 43) = false := by
        simp only [isDigitC, Bool.and_eq_true, decide_eq_true_eq] at hd0
        simp
        omega
      have h45 : (d0 == 45) = false := by
        simp only [isDigitC, Bool.and_eq_true, decide_eq_true_eq] at hd0
        simp
        omega
      simp only [scanExpPart, hcond, h43, h45, List.span_eq_take_drop, List.cons_append,
        List.nil_append, Bool.or_self, Bool.false_eq_true, if_false, if_true]
      rw [if_neg (by simp [hd0])]
      simp only [List.cons_append] at hsp
      rw [hsp.1, hsp.2]
  · simp [scanExpPart, hcond, List.span_eq_take_drop, hsp.1, hsp.2, hdse]
  · simp [scanExpPart, hcond, List.span_eq_take_drop, hsp.1, hsp.2, hdse]

theorem scanNum_emit {t rest : PyString} (h : NumShape t) (hr : SafeR rest) :
    scanNum (t ++ rest) = some (t, rest) := by
  obtain ⟨sg, ip, fp, ep, rfl, hsg, hip, hfp, hep⟩ := h
  have hrest_nd := hr.noDigit
  have h_ep_rest_nd : ep ++ rest = [] ∨
      ∃ d ds, ep ++ rest = d :: ds ∧ isDigitC d = false := by
    rcases hep with rfl | ⟨e, sg2, ds, rfl, he, _, _, _⟩
    · simpa using hrest_nd
    · right
      exact ⟨e, (sg2 ++ ds) ++ rest, by simp, by rcases he with rfl | rfl <;> rfl⟩
  have h_ep_rest_ne46 : ep ++ rest = [] ∨
      ∃ d ds, ep ++ rest = d :: ds ∧ d ≠ 46 := by
    rcases hep with rfl | ⟨e, sg2, ds, rfl, he, _, _, _⟩
    · rcases hr with rfl | ⟨c, cs, rfl, hc⟩
      · exact Or.inl rfl
      · exact Or.inr ⟨c, cs, by simp, by rcases hc with rfl | rfl | rfl <;> omega⟩
    · right
      exact ⟨e, (sg2 ++ ds) ++ rest, by simp, by rcases he with rfl | rfl <;> omega⟩
  have h_fp_ep_rest_nd : fp ++ (ep ++ rest) = [] ∨
      ∃ d ds, fp ++ (ep ++ rest) = d :: ds ∧ isDigitC d = false := by
    rcases hfp with rfl | ⟨ds, rfl, _, _⟩
    · simpa using h_ep_rest_nd
    · right
      exact ⟨46, ds ++ (ep ++ rest), by simp, by rfl⟩
  have hfrac : scanFracPart (fp ++ (ep ++ rest)) = (fp, ep ++ rest) := by
    rcases hfp with rfl | ⟨ds, rfl, hne, hds⟩
    · simpa using scanFracPart_nil h_ep_rest_ne46
    · exact scanFracPart_emit hne hds h_ep_rest_nd
  have hexp : scanExpPart (ep ++ rest) = (ep, rest) := by
    rcases hep with rfl | ⟨e, sg2, ds, rfl, he, hsg2, hne, hds⟩
    · simp only [List.nil_append]
      refine scanExpPart_nil ?_
      rcases hr with rfl | ⟨c, cs, rfl, hc⟩
      · exact Or.inl rfl
      · exact Or.inr ⟨c, cs, rfl, by rcases hc with rfl | rfl | rfl <;> omega,
          by rcases hc with rfl | rfl | rfl <;> omega⟩
    · exact scanExpPart_emit he hsg2 hne hds hrest_nd
  have hint : scanIntPart (ip ++ (fp ++ (ep ++ rest))) = some (ip, fp ++ (ep ++ rest)) :=
    scanIntPart_emit hip h_fp_ep_rest_nd
  have hipne : ip ≠ [] := by
    rcases hip with rfl | ⟨c, ds, rfl, _, _, _⟩ <;> simp
  rcases hsg with rfl | rfl
  · simp only [List.nil_append]
    cases hip0 : ip with
    | nil => exact absurd hip0 hipne
    | cons c0 ip2 =>
      have hc0 : 48 ≤ c0 ∧ c0 ≤ 57 := by
        rcases hip with h1 | ⟨c, ds, h1, hc1, hc2, _⟩ <;> rw [hip0] at h1
        · injection h1 with e1 e2
          omega
        · injection h1 with e1 e2
          subst e1
          omega
      subst hip0
      simp only [List.cons_append, List.append_assoc, scanNum]
      rw [if_neg (by simp; omega)]
      have hint2 := hint
      simp only [List.cons_append, List.append_assoc] at hint2
      rw [hint2]
      dsimp only
      rw [hfrac, hexp]
      simp
  · simp only [List.cons_append, List.append_assoc, List.nil_append, scanNum]
    rw [if_pos (by rfl)]
    have hint2 := hint
    simp only [List.append_assoc] at hint2
    rw [hint2]
    dsimp only
    rw [hfrac, hexp]

theorem scanNum_wf_output {cs t r : PyString} (h : scanNum cs = some (t, r)) :
    wfNum t = true := by
  obtain ⟨_, hsh⟩ := scanNum_inv h
  have h2 := scanNum_emit hsh (Or.inl rfl)
  rw [List.append_nil] at h2
  simp [wfNum, h2]

theorem scanNum_of_wfNum {t rest : PyString} (h : wfNum t = true) (hr : SafeR rest) :
    scanNum (t ++ rest) = some (t, rest) := by
  unfold wfNum at h
  rcases hsn : scanNum t with _ | ⟨⟨tok, r⟩⟩
  · rw [hsn] at h
    cases h
  · rw [hsn] at h
    have hre : r = [] := by simpa [List.isEmpty_iff] using h
    subst hre
    obtain ⟨ht, hsh⟩ := scanNum_inv hsn
    rw [List.append_nil] at ht
    subst ht
    exact scanNum_emit hsh hr

theorem NumShape_head {t : PyString} (h : NumShape t) :
    ∃ c ts, t = c :: ts ∧ (c = 45 ∨ (48 ≤ c ∧ c ≤ 57)) := by
  obtain ⟨sg, ip, fp, ep, rfl, hsg, hip, _, _⟩ := h
  rcases hsg with rfl | rfl
  · rcases hip with rfl | ⟨c, ds, rfl, hc1, hc2, _⟩
    · exact ⟨48, fp ++ ep, by simp, Or.inr (by omega)⟩
    · exact ⟨c, ds ++ (fp ++ ep), by simp, Or.inr (by omega)⟩
  · exact ⟨45, ip ++ (fp ++ ep), by simp, Or.inl rfl⟩

theorem last_digit_of_all {l : PyString} (hne : l ≠ [])
    (hp : ∀ d ∈ l, isDigitC d = true) :
    ∃ d, l.getLast? = some d ∧ isDigitC d = true := by
  refine ⟨l.getLast hne, ?_, hp _ (List.getLast_mem hne)⟩
  exact List.getLast?_eq_getLast l hne

theorem NumShape_last {t : PyString} (h : NumShape t) :
    ∃ d, t.getLast? = some d ∧ isDigitC d = true := by
  obtain ⟨sg, ip, fp, ep, rfl, hsg, hip, hfp, hep⟩ := h
  rcases hep with rfl | ⟨e, sg2, ds, rfl, _, _, hne, hds⟩
  · rcases hfp with rfl | ⟨ds, rfl, hne, hds⟩
    · simp only [List.append_nil]
      have hipfacts : ip ≠ [] ∧ ∀ d ∈ ip, isDigitC d = true := by
        rcases hip with rfl | ⟨c, ds, rfl, hc1, hc2, hds⟩
        · refine ⟨by simp, ?_⟩
          intro d hd
          simp at hd
          subst hd
          rfl
        · refine ⟨by simp, ?_⟩
          intro d hd
          rcases List.mem_cons.mp hd with rfl | hd2
          · simp only [isDigitC, Bool.and_eq_true, decide_eq_true_eq]
            omega
          · exact hds d hd2
      obtain ⟨d, hd1, hd2⟩ := last_digit_of_all hipfacts.1 hipfacts.2
      refine ⟨d, ?_, hd2⟩
      rw [List.getLast?_append_of_ne_nil _ hipfacts.1]
      exact hd1
    · obtain ⟨d, hd1, hd2⟩ := last_digit_of_all (l := ds) hne hds
      refine ⟨d, ?_, hd2⟩
      simp only [List.append_nil]
      rw [List.getLast?_append_of_ne_nil _ (by simp),
        List.getLast?_append_of_ne_nil _ (by simp),
        show (46 : Nat) :: ds = [46] ++ ds from rfl,
        List.getLast?_append_of_ne_nil _ (by simpa using hne)]
      exact hd1
  · obtain ⟨d, hd1, hd2⟩ := last_digit_of_all (l := ds) hne hds
    refine ⟨d, ?_, hd2⟩
    rw [List.getLast?_append_of_ne_nil _ (by simp),
      List.getLast?_append_of_ne_nil _ (by simp),
      List.getLast?_append_of_ne_nil _ (by simp)]
    rw [show e :: (sg2 ++ ds) = (e :: sg2) ++ ds by simp,
      List.getLast?_append_of_ne_nil _ hne]
    exact hd1

theorem NumShape_of_wfNum {t : PyString} (h : wfNum t = true) : NumShape t := by
  unfold wfNum at h
  rcases hsn : scanNum t with _ | ⟨⟨tok, r⟩⟩
  · rw [hsn] at h
    cases h
  · rw [hsn] at h
    have hre : r = [] := by simpa [List.isEmpty_iff] using h
    subst hre
    obtain ⟨ht, hsh⟩ := scanNum_inv hsn
    rw [List.append_nil] at ht
    subst ht
    exact hsh

/-! ## Auxiliary facts for the emission round trip -/

theorem dropLit_self : ∀ (lit rest : PyString), dropLit lit (lit ++ rest) = some rest := by
  intro lit
  induction lit with
  | nil => intro rest; rfl
  | cons l ls ih => intro rest; simp [dropLit, ih rest]

theorem dropLit_sound : ∀ {lit cs r : PyString}, dropLit lit cs = some r → cs = lit ++ r := by
  intro lit
  induction lit with
  | nil =>
    intro cs r h
    simp only [dropLit, Option.some.injEq] at h
    simp [h]
  | cons l ls ih =>
    intro cs r h
    cases cs with
    | nil => simp [dropLit] at h
    | cons c cs2 =>
      simp only [dropLit] at h
      by_cases hc : (c == l) = true
      · rw [if_pos hc] at h
        have := ih h
        simp only [beq_iff_eq] at hc
        simp [hc, this]
      · rw [if_neg hc] at h
        cases h

theorem length_le_flatMap_escChar (s : PyString) :
    s.length ≤ (s.flatMap escChar).length := by
  induction s with
  | nil => simp
  | cons c s ih =>
    have h1 : 1 ≤ (escChar c).length := by
      simp only [escChar]
      split
      · simp
      · split
        · simp
        · split
          · simp [hexDigits4]
          · simp
    simp only [List.flatMap_cons, List.length_append, List.length_cons]
    omega

theorem emitVal_head {v : PyVal} (hwf : wfVal v = true) :
    ∃ c t, emitVal v = c :: t ∧ wsChar c = false ∧ c ≠ 93 ∧ c ≠ 125 := by
  cases v with
  | none => exact ⟨110, _, rfl, by decide, by decide, by decide⟩
  | bool b =>
    cases b with
    | true => exact ⟨116, _, rfl, by decide, by decide, by decide⟩
    | false => exact ⟨102, _, rfl, by decide, by decide, by decide⟩
  | num t =>
    simp only [wfVal, wfNumTok, Bool.or_eq_true, beq_iff_eq] at hwf
    rcases hwf with ((rfl | rfl) | rfl) | hwf
    · exact ⟨78, _, rfl, by decide, by decide, by decide⟩
    · exact ⟨73, _, rfl, by decide, by decide, by decide⟩
    · exact ⟨45, _, rfl, by decide, by decide, by decide⟩
    · obtain ⟨c, ts, ht, hc⟩ := NumShape_head (NumShape_of_wfNum hwf)
      refine ⟨c, ts, by simp [emitVal, ht], ?_, ?_, ?_⟩
      · rcases hc with rfl | ⟨h1, h2⟩
        · rfl
        · simp only [wsChar]
          simp
          omega
      · rcases hc with rfl | ⟨h1, h2⟩ <;> omega
      · rcases hc with rfl | ⟨h1, h2⟩ <;> omega
  | str s => exact ⟨34, _, rfl, by decide, by decide, by decide⟩
  | list xs =>
    cases xs with
    | nil => exact ⟨91, _, rfl, by decide, by decide, by decide⟩
    | cons x xs2 => exact ⟨91, _, rfl, by decide, by decide, by decide⟩
  | dict kvs =>
    cases kvs with
    | nil => exact ⟨123, _, rfl, by decide, by decide, by decide⟩
    | cons kv kvs2 =>
      cases kv with
      | mk k v2 => exact ⟨123, _, rfl, by decide, by decide, by decide⟩

theorem pyDictInsert_not_mem {α : Type} (d : List (PyString × α)) (k : PyString) (v : α)
    (h : d.any (fun kv => kv.1 == k) = false) : pyDictInsert d k v = d ++ [(k, v)] := by
  simp only [pyDictInsert, h]
  simp

theorem dictFold_app :
    ∀ (pairs acc : List (PyString × PyVal)), nodupKeys pairs = true →
    (∀ kv ∈ pairs, acc.any (fun kv2 => kv2.1 == kv.1) = false) →
    pairs.foldl (fun a kv => pyDictInsert a kv.1 kv.2) acc = acc ++ pairs := by
  intro pairs
  induction pairs with
  | nil => intro acc _ _; simp
  | cons kv ps ih =>
    intro acc hnd hdis
    simp only [nodupKeys, Bool.and_eq_true, Bool.not_eq_true'] at hnd
    have hstep : pyDictInsert acc kv.1 kv.2 = acc ++ [(kv.1, kv.2)] :=
      pyDictInsert_not_mem acc kv.1 kv.2 (hdis kv (by simp))
    simp only [List.foldl_cons, hstep]
    rw [ih (acc ++ [(kv.1, kv.2)]) hnd.2]
    · simp
    · intro kv2 hkv2
      rw [List.any_append]
      simp only [Bool.or_eq_false_iff]
      constructor
      · exact hdis kv2 (by simp [hkv2])
      · simp only [List.any_cons, List.any_nil, Bool.or_false]
        have : (kv2.1 == kv.1) = false := by
          have hall := List.any_eq_false.mp hnd.1
          exact Bool.not_eq_true _ ▸ hall kv2 hkv2
        simp only [beq_eq_false_iff_ne, ne_eq] at this ⊢
        exact fun he => this (by rw [he])

theorem dictFinish_nodup {kvs : List (PyString × PyVal)} (h : nodupKeys kvs = true) :
    dictFinish kvs = kvs := by
  have := dictFold_app kvs [] h (by intro kv _; rfl)
  simpa [dictFinish] using this

/-! ## Round trip of the value parser over the emitter -/

theorem parseArrayLoop_emit :
    ∀ (xs : List PyVal) (x : PyVal) (g : Nat) (acc : List PyVal) (rest : PyString),
    wfVal x = true → (∀ y ∈ xs, wfVal y = true) →
    (∀ y ∈ x :: xs, ∀ (f2 : Nat) (rest2 : PyString), fuelNeeded y ≤ f2 → SafeR rest2 →
      parseValue f2 (emitVal y ++ rest2) = some (y, rest2)) →
    fuelItems (x :: xs) ≤ g → SafeR rest →
    parseArrayLoop g ((emitVal x ++ emitListRest xs) ++ (93 :: rest)) acc =
      some (acc ++ (x :: xs), rest) := by
  intro xs
  induction xs with
  | nil =>
    intro x g acc rest hwx _ hp hg hsafe
    simp only [fuelItems] at hg
    cases g with
    | zero => omega
    | succ g2 =>
      have hx := hp x (by simp) g2 (93 :: rest) (by omega)
        (Or.inr ⟨93, rest, rfl, Or.inr (Or.inl rfl)⟩)
      simp only [emitListRest, List.append_nil, parseArrayLoop]
      rw [hx]
      simp [skipWs_of_head_not_ws (c := 93) (by decide)]
  | cons y ys ih =>
    intro x g acc rest hwx hwxs hp hg hsafe
    simp only [fuelItems] at hg
    cases g with
    | zero => omega
    | succ g2 =>
      have hsafe44 : SafeR (44 :: ((emitVal y ++ emitListRest ys) ++ (93 :: rest))) :=
        Or.inr ⟨44, _, rfl, Or.inl rfl⟩
      have hx := hp x (by simp) g2 _ (by omega) hsafe44
      simp only [emitListRest, parseArrayLoop]
      have hshape : (emitVal x ++ (44 :: (emitVal y ++ emitListRest ys))) ++ (93 :: rest) =
          emitVal x ++ (44 :: ((emitVal y ++ emitListRest ys) ++ (93 :: rest))) := by
        simp
      rw [hshape, hx]
      dsimp only
      rw [skipWs_of_head_not_ws (c := 44) (by decide)]
      dsimp only
      obtain ⟨c0, t0, he0, hw0, _, _⟩ := emitVal_head (hwxs y (by simp))
      have hskip : skipWs ((emitVal y ++ emitListRest ys) ++ (93 :: rest)) =
          (emitVal y ++ emitListRest ys) ++ (93 :: rest) := by
        rw [he0]
        simp only [List.cons_append, List.append_assoc]
        exact skipWs_of_head_not_ws hw0
      rw [hskip]
      have := ih y g2 (acc ++ [x]) rest (hwxs y (by simp))
        (fun z hz => hwxs z (by simp [hz]))
        (fun z hz => hp z (List.mem_cons_of_mem x hz))
        (by simp only [fuelItems]; omega) hsafe
      rw [this]
      simp

theorem scanString_emit (s rest : PyString) :
    scanString ((s.flatMap escChar) ++ (34 :: rest)) = some (s, rest) := by
  apply scanStringAux_emit
  have := length_le_flatMap_escChar s
  simp only [List.length_append, List.length_cons]
  omega

theorem parseObjectLoop_emit :
    ∀ (kvs : List (PyString × PyVal)) (k : PyString) (v : PyVal) (g : Nat)
      (acc : List (PyString × PyVal)) (rest : PyString),
    wfVal v = true → (∀ kv ∈ kvs, wfVal kv.2 = true) →
    (∀ kv ∈ (k, v) :: kvs, ∀ (f2 : Nat) (rest2 : PyString),
      fuelNeeded kv.2 ≤ f2 → SafeR rest2 →
      parseValue f2 (emitVal kv.2 ++ rest2) = some (kv.2, rest2)) →
    fuelPairs ((k, v) :: kvs) ≤ g → SafeR rest →
    parseObjectLoop g ((emitStr k ++ (58 :: (emitVal v ++ emitDictRest kvs))) ++ (125 :: rest)) acc =
      some (acc ++ ((k, v) :: kvs), rest) := by
  intro kvs
  induction kvs with
  | nil =>
    intro k v g acc rest hwv _ hp hg hsafe
    simp only [fuelPairs] at hg
    cases g with
    | zero => omega
    | succ g2 =>
      have hv := hp (k, v) (by simp) g2 (125 :: rest) (by simp; omega)
        (Or.inr ⟨125, rest, rfl, Or.inr (Or.inr rfl)⟩)
      simp only at hv
      simp only [emitDictRest, List.append_nil, emitStr, List.cons_append,
        List.append_assoc, List.nil_append, parseObjectLoop]
      rw [show (List.flatMap k escChar ++ (34 :: (58 :: (emitVal v ++ (125 :: rest))))) =
          (k.flatMap escChar) ++ (34 :: (58 :: (emitVal v ++ (125 :: rest)))) from rfl]
      rw [scanString_emit]
      dsimp only
      rw [skipWs_of_head_not_ws (c := 58) (by decide)]
      dsimp only
      obtain ⟨c0, t0, he0, hw0, _, _⟩ := emitVal_head hwv
      have hskip : skipWs (emitVal v ++ (125 :: rest)) = emitVal v ++ (125 :: rest) := by
        rw [he0]
        simp only [List.cons_append]
        exact skipWs_of_head_not_ws hw0
      rw [hskip, hv]
      dsimp only
      rw [skipWs_of_head_not_ws (c := 125) (by decide)]
  | cons kv2 kvs2 ih =>
    intro k v g acc rest hwv hwkvs hp hg hsafe
    simp only [fuelPairs] at hg
    cases g with
    | zero => omega
    | succ g2 =>
      cases kv2 with
      | mk k2 v2 =>
        have hsafe44 : SafeR (44 :: ((emitStr k2 ++ (58 :: (emitVal v2 ++ emitDictRest kvs2))) ++ (125 :: rest))) :=
          Or.inr ⟨44, _, rfl, Or.inl rfl⟩
        have hv := hp (k, v) (by simp) g2
          (44 :: ((emitStr k2 ++ (58 :: (emitVal v2 ++ emitDictRest kvs2))) ++ (125 :: rest)))
          (by simp; omega) hsafe44
        simp only at hv
        simp only [emitDictRest, emitStr, List.cons_append, List.append_assoc,
          List.nil_append, parseObjectLoop]
        rw [show (List.flatMap k escChar ++ (34 :: (58 :: (emitVal v ++ (44 :: (34 :: (List.flatMap k2 escChar ++ (34 :: (58 :: (emitVal v2 ++ (emitDictRest kvs2 ++ (125 :: rest)))))))))))) =
            (k.flatMap escChar) ++ (34 :: (58 :: (emitVal v ++ (44 :: (34 :: (List.flatMap k2 escChar ++ (34 :: (58 :: (emitVal v2 ++ (emitDictRest kvs2 ++ (125 :: rest))))))))))) from rfl]
        rw [scanString_emit]
        dsimp only
        rw [skipWs_of_head_not_ws (c := 58) (by decide)]
        dsimp only
        obtain ⟨c0, t0, he0, hw0, _, _⟩ := emitVal_head hwv
        have hskip : skipWs (emitVal v ++ (44 :: (34 :: (List.flatMap k2 escChar ++ (34 :: (58 :: (emitVal v2 ++ (emitDictRest kvs2 ++ (125 :: rest))))))))) =
            emitVal v ++ (44 :: (34 :: (List.flatMap k2 escChar ++ (34 :: (58 :: (emitVal v2 ++ (emitDictRest kvs2 ++ (125 :: rest)))))))) := by
          rw [he0]
          simp only [List.cons_append]
          exact skipWs_of_head_not_ws hw0
        rw [hskip]
        have hv2 := hv
        simp only [emitStr, List.cons_append, List.append_assoc, List.nil_append,
          List.singleton_append] at hv2
        rw [hv2]
        dsimp only
        rw [skipWs_of_head_not_ws (c := 44) (by decide)]
        dsimp only
        rw [skipWs_of_head_not_ws (c := 34) (by decide)]
        have := ih k2 v2 g2 (acc ++ [(k, v)]) rest (hwkvs (k2, v2) (by simp))
          (fun z hz => hwkvs z (List.mem_cons_of_mem _ hz))
          (fun z hz => hp z (List.mem_cons_of_mem _ hz))
          (by simp only [fuelPairs] at hg ⊢; omega) hsafe
        have hthis := this
        simp only [emitStr, List.cons_append, List.append_assoc, List.nil_append,
          List.singleton_append] at hthis
        rw [hthis]

theorem wfValList_mem {xs : List PyVal} (h : wfValList xs = true) :
    ∀ x ∈ xs, wfVal x = true := by
  induction xs with
  | nil => intro x hx; cases hx
  | cons y ys ih =>
    simp only [wfValList, Bool.and_eq_true] at h
    intro x hx
    rcases List.mem_cons.mp hx with rfl | hx2
    · exact h.1
    · exact ih h.2 x hx2

theorem wfValDict_mem {kvs : List (PyString × PyVal)} (h : wfValDict kvs = true) :
    ∀ kv ∈ kvs, wfVal kv.2 = true := by
  induction kvs with
  | nil => intro kv hkv; cases hkv
  | cons lv lvs ih =>
    cases lv with
    | mk k v =>
      simp only [wfValDict, Bool.and_eq_true] at h
      intro kv hkv
      rcases List.mem_cons.mp hkv with rfl | hkv2
      · exact h.1
      · exact ih h.2 kv hkv2

theorem parseValue_emit :
    ∀ (n : Nat) (v : PyVal), PyVal.psize v ≤ n → wfVal v = true →
    ∀ (f : Nat) (rest : PyString), fuelNeeded v ≤ f → SafeR rest →
    parseValue f (emitVal v ++ rest) = some (v, rest) := by
  intro n
  induction n with
  | zero =>
    intro v h
    exfalso
    cases v <;> simp [PyVal.psize] at h
  | succ n ih =>
    intro v hsz hwf f rest hfuel hsafe
    cases v with
    | none =>
      cases f with
      | zero => simp [fuelNeeded] at hfuel
      | succ f2 => simp [emitVal, parseValue, dropLit]
    | bool b =>
      cases f with
      | zero => simp [fuelNeeded] at hfuel
      | succ f2 =>
        cases b with
        | true => simp [emitVal, parseValue, dropLit]
        | false => simp [emitVal, parseValue, dropLit]
    | num t =>
      cases f with
      | zero => simp [fuelNeeded] at hfuel
      | succ f2 =>
        have hnt : wfNumTok t = true := by simpa [wfVal] using hwf
        simp only [wfNumTok, Bool.or_eq_true, beq_iff_eq] at hnt
        rcases hnt with ((rfl | rfl) | rfl) | hwfn
        · simp [emitVal, nanTok, parseValue, dropLit]
        · simp [emitVal, infTok, parseValue, dropLit]
        · simp only [emitVal, negInfTok, infTok, List.cons_append, parseValue]
          rw [if_neg (by decide), if_neg (by decide), if_neg (by decide),
            if_neg (by decide), if_neg (by decide), if_neg (by decide),
            if_neg (by decide), if_neg (by decide), if_pos (by decide)]
          simp [dropLit]
        · have hshape := NumShape_of_wfNum hwfn
          obtain ⟨c0, ts, heq, hc0⟩ := NumShape_head hshape
          have hscan := scanNum_of_wfNum hwfn hsafe
          rcases hc0 with rfl | ⟨hd1, hd2⟩
          · -- the token begins with a minus sign
            have hts : ∃ d0 ts2, ts = d0 :: ts2 ∧ 48 ≤ d0 ∧ d0 ≤ 57 := by
              obtain ⟨sg, ip, fp, ep, heq2, hsg, hip, _, _⟩ := hshape
              rcases hsg with rfl | rfl
              · exfalso
                rw [heq] at heq2
                rcases hip with rfl | ⟨c, ds, hipE, hc1, hc2, _⟩
                · simp only [List.nil_append, List.cons_append, List.cons.injEq] at heq2
                  omega
                · rw [hipE] at heq2
                  simp only [List.nil_append, List.cons_append, List.cons.injEq] at heq2
                  omega
              · rw [heq] at heq2
                simp only [List.cons_append, List.nil_append, List.cons.injEq,
                  List.singleton_append] at heq2
                rcases hip with rfl | ⟨c, ds, hipE, hc1, hc2, _⟩
                · exact ⟨48, fp ++ ep, by simpa using heq2.2, by omega, by omega⟩
                · refine ⟨c, ds ++ (fp ++ ep), ?_, by omega, by omega⟩
                  rw [heq2.2, hipE]
                  simp
            obtain ⟨d0, ts2, rfl, hd1, hd2⟩ := hts
            simp only [emitVal, heq, List.cons_append, parseValue]
            rw [if_neg (by decide), if_neg (by decide), if_neg (by decide),
              if_neg (by decide), if_neg (by decide), if_neg (by decide),
              if_neg (by decide), if_neg (by decide), if_pos (by decide)]
            have hdl : dropLit infTok (d0 :: (ts2 ++ rest)) = Option.none := by
              simp only [infTok, dropLit]
              rw [if_neg (by simp; omega)]
            rw [hdl]
            rw [show (45 : Nat) :: (d0 :: (ts2 ++ rest)) = (45 :: (d0 :: ts2)) ++ rest from by simp,
              ← heq, hscan]
            rfl
          · -- the token begins with a digit
            simp only [emitVal, heq, List.cons_append, parseValue]
            rw [if_neg (by simp; omega), if_neg (by simp; omega), if_neg (by simp; omega),
              if_neg (by simp; omega), if_neg (by simp; omega), if_neg (by simp; omega),
              if_neg (by simp; omega), if_neg (by simp; omega), if_neg (by simp; omega)]
            rw [show c0 :: (ts ++ rest) = (c0 :: ts) ++ rest from by simp, ← heq, hscan]
            rfl
    | str s =>
      cases f with
      | zero => simp [fuelNeeded] at hfuel
      | succ f2 =>
        simp only [emitVal, emitStr, List.cons_append, List.append_assoc,
          List.singleton_append, parseValue]
        rw [if_pos (by decide)]
        rw [scanString_emit]
        rfl
    | list xs =>
      cases f with
      | zero => simp [fuelNeeded] at hfuel
      | succ f2 =>
        cases xs with
        | nil =>
          simp only [emitVal, List.cons_append, List.nil_append, parseValue]
          rw [if_neg (by decide), if_neg (by decide), if_pos (by decide)]
          rw [skipWs_of_head_not_ws (c := 93) (by decide)]
        | cons x xs2 =>
          have hwfl : wfVal x = true ∧ wfValList xs2 = true := by
            have := hwf
            simp only [wfVal, wfValList, Bool.and_eq_true] at this
            exact this
          have hwmem : ∀ y ∈ x :: xs2, wfVal y = true := by
            intro y hy
            rcases List.mem_cons.mp hy with rfl | hy2
            · exact hwfl.1
            · exact wfValList_mem hwfl.2 y hy2
          have hpmem : ∀ y ∈ x :: xs2, ∀ (f2 : Nat) (rest2 : PyString),
              fuelNeeded y ≤ f2 → SafeR rest2 →
              parseValue f2 (emitVal y ++ rest2) = some (y, rest2) := by
            intro y hy f3 rest3 hf3 hs3
            refine ih y ?_ (hwmem y hy) f3 rest3 hf3 hs3
            have := PyVal.psize_lt_of_mem hy
            simp only [PyVal.psize] at hsz
            omega
          obtain ⟨c0, t0, he0, hw0, hn93, _⟩ := emitVal_head hwfl.1
          simp only [emitVal, List.cons_append, List.append_assoc, List.nil_append,
            List.singleton_append, parseValue]
          rw [if_neg (by decide), if_neg (by decide), if_pos (by decide)]
          have hskip : skipWs (emitVal x ++ (emitListRest xs2 ++ (93 :: rest))) =
              emitVal x ++ (emitListRest xs2 ++ (93 :: rest)) := by
            rw [he0]
            simp only [List.cons_append]
            exact skipWs_of_head_not_ws hw0
          rw [hskip]
          split
          · rename_i r2 harm
            exfalso
            rw [he0] at harm
            simp only [List.cons_append, List.cons.injEq] at harm
            exact hn93 harm.1
          · have hloop := parseArrayLoop_emit xs2 x f2 [] rest hwfl.1
              (wfValList_mem hwfl.2) hpmem
              (by simp only [fuelNeeded] at hfuel; omega) hsafe
            have hloop2 := hloop
            simp only [List.append_assoc, List.nil_append] at hloop2 ⊢
            rw [hloop2]
    | dict kvs =>
      cases f with
      | zero => simp [fuelNeeded] at hfuel
      | succ f2 =>
        cases kvs with
        | nil =>
          simp only [emitVal, List.cons_append, List.nil_append, parseValue]
          rw [if_neg (by decide), if_pos (by decide)]
          rw [skipWs_of_head_not_ws (c := 125) (by decide)]
        | cons kv kvs2 =>
          cases kv with
          | mk k v =>
            have hwfl : nodupKeys ((k, v) :: kvs2) = true ∧
                wfVal v = true ∧ wfValDict kvs2 = true := by
              have := hwf
              simp only [wfVal, wfValDict, Bool.and_eq_true] at this
              exact ⟨this.1, this.2.1, this.2.2⟩
            have hwmem : ∀ kv2 ∈ (k, v) :: kvs2, wfVal kv2.2 = true := by
              intro kv2 hkv2
              rcases List.mem_cons.mp hkv2 with rfl | hkv3
              · exact hwfl.2.1
              · exact wfValDict_mem hwfl.2.2 kv2 hkv3
            have hpmem : ∀ kv2 ∈ (k, v) :: kvs2, ∀ (f3 : Nat) (rest3 : PyString),
                fuelNeeded kv2.2 ≤ f3 → SafeR rest3 →
                parseValue f3 (emitVal kv2.2 ++ rest3) = some (kv2.2, rest3) := by
              intro kv2 hkv2 f3 rest3 hf3 hs3
              refine ih kv2.2 ?_ (hwmem kv2 hkv2) f3 rest3 hf3 hs3
              have := PyVal.psize_lt_of_mem_dict hkv2
              simp only [PyVal.psize] at hsz
              omega
            simp only [emitVal, emitStr, List.cons_append, List.append_assoc,
              List.singleton_append, List.nil_append, parseValue]
            rw [if_neg (by decide), if_pos (by decide)]
            have hskip : skipWs (34 :: (List.flatMap k escChar ++
                (34 :: (58 :: (emitVal v ++ (emitDictRest kvs2 ++ (125 :: rest))))))) =
                34 :: (List.flatMap k escChar ++
                (34 :: (58 :: (emitVal v ++ (emitDictRest kvs2 ++ (125 :: rest)))))) :=
              skipWs_of_head_not_ws (by decide)
            rw [hskip]
            split
            · rename_i r2 harm
              cases harm
            · have hloop := parseObjectLoop_emit kvs2 k v f2 [] rest hwfl.2.1
                (wfValDict_mem hwfl.2.2) hpmem
                (by simp only [fuelNeeded] at hfuel; omega) hsafe
              have hloop2 := hloop
              simp only [emitStr, List.cons_append, List.append_assoc,
                List.nil_append, List.singleton_append] at hloop2
              rw [hloop2]
              dsimp only
              rw [dictFinish_nodup hwfl.1]

theorem fuelNeeded_le (v : PyVal) : fuelNeeded v ≤ 2 * (emitVal v).length + 1 := by
  induction v using PyVal.inductionOn with
  | hnone => simp [fuelNeeded]
  | hbool b => cases b <;> simp [fuelNeeded]
  | hnum t => simp [fuelNeeded]
  | hstr s => simp [fuelNeeded]
  | hlist xs ih =>
    cases xs with
    | nil => simp [fuelNeeded, fuelItems, emitVal]
    | cons x xs2 =>
      have htail : ∀ ys, (∀ y ∈ ys, fuelNeeded y ≤ 2 * (emitVal y).length + 1) →
          fuelItems ys ≤ 2 * (emitListRest ys).length := by
        intro ys
        induction ys with
        | nil => intro _; simp [fuelItems, emitListRest]
        | cons y ys2 ihy =>
          intro hmem
          have h1 := hmem y (by simp)
          have h2 := ihy (fun z hz => hmem z (by simp [hz]))
          simp only [fuelItems, emitListRest, List.length_cons, List.length_append]
          omega
      have hx := ih x (by simp)
      have hxs := htail xs2 (fun z hz => ih z (by simp [hz]))
      simp only [fuelNeeded, fuelItems, emitVal, List.length_cons, List.length_append]
      omega
  | hdict kvs ih =>
    cases kvs with
    | nil => simp [fuelNeeded, fuelPairs, emitVal]
    | cons kv kvs2 =>
      cases kv with
      | mk k v0 =>
        have htail : ∀ ys, (∀ y ∈ ys, fuelNeeded (Prod.snd y) ≤ 2 * (emitVal y.2).length + 1) →
            fuelPairs ys ≤ 2 * (emitDictRest ys).length := by
          intro ys
          induction ys with
          | nil => intro _; simp [fuelPairs, emitDictRest]
          | cons y ys2 ihy =>
            intro hmem
            cases y with
            | mk k2 v2 =>
              have h1 := hmem (k2, v2) (by simp)
              dsimp only at h1
              have h2 := ihy (fun z hz => hmem z (by simp [hz]))
              simp only [fuelPairs, emitDictRest, List.length_cons, List.length_append]
              omega
        have hx := ih (k, v0) (by simp)
        dsimp only at hx
        have hxs := htail kvs2 (fun z hz => ih z (by simp [hz]))
        simp only [fuelNeeded, fuelPairs, emitVal, List.length_cons, List.length_append]
        omega

theorem loads_emit {v : PyVal} (hwf : wfVal v = true) : loads (emitVal v) = some v := by
  obtain ⟨c0, t0, he0, hw0, _, _⟩ := emitVal_head hwf
  have hmain := parseValue_emit (PyVal.psize v) v le_rfl hwf
    (2 * (emitVal v).length + 4) [] (by have := fuelNeeded_le v; omega) (Or.inl rfl)
  rw [List.append_nil] at hmain
  unfold loads
  rw [show skipWs (emitVal v) = emitVal v from by rw [he0]; exact skipWs_of_head_not_ws hw0]
  rw [hmain]
  rfl

/-! ## Rebuilding a table from its record-list encoding -/

theorem wfValList_of_mem {xs : List PyVal} (h : ∀ x ∈ xs, wfVal x = true) :
    wfValList xs = true := by
  induction xs with
  | nil => rfl
  | cons y ys ih =>
    simp only [wfValList, Bool.and_eq_true]
    exact ⟨h y (by simp), ih (fun z hz => h z (by simp [hz]))⟩

theorem wfValDict_of_mem {kvs : List (PyString × PyVal)}
    (h : ∀ kv ∈ kvs, wfVal kv.2 = true) : wfValDict kvs = true := by
  induction kvs with
  | nil => rfl
  | cons y ys ih =>
    cases y with
    | mk k v =>
      simp only [wfValDict, Bool.and_eq_true]
      exact ⟨h (k, v) (by simp), ih (fun z hz => h z (by simp [hz]))⟩

theorem zip_keys_eq {cols : List PyString} {row : List PyVal}
    (hlen : row.length = cols.length) :
    (List.zip cols row).map Prod.fst = cols := by
  induction cols generalizing row with
  | nil => simp
  | cons c cs ih =>
    cases row with
    | nil => simp at hlen
    | cons v vs =>
      simp only [List.zip_cons_cons, List.map_cons]
      rw [ih (by simpa using hlen)]

theorem nodupKeys_of_nodupStrs :
    ∀ (kvs : List (PyString × PyVal)), nodupStrs (kvs.map Prod.fst) = true →
    nodupKeys kvs = true := by
  intro kvs
  induction kvs with
  | nil => intro _; rfl
  | cons kv kvs2 ih =>
    intro h
    simp only [List.map_cons, nodupStrs, Bool.and_eq_true, Bool.not_eq_true'] at h
    simp only [nodupKeys, Bool.and_eq_true, Bool.not_eq_true']
    refine ⟨?_, ih h.2⟩
    have hnc := h.1
    rw [List.any_eq_false]
    intro kv2 hkv2
    intro hcontra
    have hne : kv2.1 = kv.1 := by simpa using hcontra
    have hmem : kv.1 ∈ kvs2.map Prod.fst :=
      hne ▸ List.mem_map_of_mem Prod.fst hkv2
    have h2 : (kvs2.map Prod.fst).contains kv.1 = true :=
      List.contains_iff_exists_mem_beq.mpr ⟨kv.1, hmem, by simp⟩
    rw [h2] at hnc
    cases hnc

theorem nodupStrs_of_nodupKeys :
    ∀ (kvs : List (PyString × PyVal)), nodupKeys kvs = true →
    nodupStrs (kvs.map Prod.fst) = true := by
  intro kvs
  induction kvs with
  | nil => intro _; rfl
  | cons kv kvs2 ih =>
    intro h
    simp only [nodupKeys, Bool.and_eq_true, Bool.not_eq_true'] at h
    simp only [List.map_cons, nodupStrs, Bool.and_eq_true, Bool.not_eq_true']
    refine ⟨?_, ih h.2⟩
    apply Bool.eq_false_iff.mpr
    intro hmem0
    obtain ⟨a2, ha2, hbeq⟩ := List.contains_iff_exists_mem_beq.mp hmem0
    obtain ⟨kv2, hkv2, hfst⟩ := List.mem_map.mp ha2
    have := List.any_eq_false.mp h.1 kv2 hkv2
    simp only [beq_eq_false_iff_ne, ne_eq] at this
    simp only [beq_iff_eq] at hbeq
    exact this (by rw [hfst, ← hbeq]; simp)

theorem recGet_zip_head {c : PyString} {v : PyVal} {cs : List PyString} {vs : List PyVal} :
    recGet (List.zip (c :: cs) (v :: vs)) c = v := by
  simp [recGet, List.zip, List.zip_cons_cons, List.find?]

theorem recGet_zip_tail {c c2 : PyString} {v : PyVal} {cs : List PyString}
    {vs : List PyVal} (h : c2 ≠ c) :
    recGet (List.zip (c :: cs) (v :: vs)) c2 = recGet (List.zip cs vs) c2 := by
  have hbe : (c == c2) = false := by
    simp only [beq_eq_false_iff_ne, ne_eq]
    exact fun he => h he.symm
  simp [recGet, List.zip, List.zip_cons_cons, List.find?, hbe]

theorem map_recGet_zip {cols : List PyString} {row : List PyVal}
    (hnd : nodupStrs cols = true) (hlen : row.length = cols.length) :
    cols.map (fun c => recGet (List.zip cols row) c) = row := by
  induction cols generalizing row with
  | nil =>
    cases row with
    | nil => rfl
    | cons v vs => simp at hlen
  | cons c cs ih =>
    cases row with
    | nil => simp at hlen
    | cons v vs =>
      simp only [nodupStrs, Bool.and_eq_true, Bool.not_eq_true'] at hnd
      simp only [List.map_cons, recGet_zip_head, List.cons.injEq, true_and]
      refine ?_
      have hmape : cs.map (fun c2 => recGet (List.zip (c :: cs) (v :: vs)) c2) =
          cs.map (fun c2 => recGet (List.zip cs vs) c2) := by
        apply List.map_congr_left
        intro c2 hc2
        apply recGet_zip_tail
        intro he
        have h2 : cs.contains c = true :=
          List.contains_iff_exists_mem_beq.mpr ⟨c, he ▸ hc2, by simp⟩
        rw [h2] at hnd
        exact absurd hnd.1 (by simp)
      rw [hmape, ih hnd.2 (by simpa using hlen)]

theorem innerKeyFold_all_mem :
    ∀ (r : List (PyString × PyVal)) (acc : List PyString),
    (∀ kv ∈ r, acc.contains kv.1 = true) →
    r.foldl (fun acc2 kv => if acc2.contains kv.1 then acc2 else acc2 ++ [kv.1]) acc = acc := by
  intro r
  induction r with
  | nil => intro acc _; rfl
  | cons kv r2 ih =>
    intro acc h
    simp only [List.foldl_cons, h kv (by simp), if_true]
    exact ih acc (fun kv2 hkv2 => h kv2 (by simp [hkv2]))

theorem innerKeyFold_zip :
    ∀ (cols : List PyString) (row : List PyVal) (acc : List PyString),
    row.length = cols.length → nodupStrs cols = true →
    (∀ c ∈ cols, acc.contains c = false) →
    (List.zip cols row).foldl
      (fun acc2 kv => if acc2.contains kv.1 then acc2 else acc2 ++ [kv.1]) acc =
      acc ++ cols := by
  intro cols
  induction cols with
  | nil =>
    intro row acc _ _ _
    simp [List.zip]
  | cons c cs ih =>
    intro row acc hlen hnd hnc
    cases row with
    | nil => simp at hlen
    | cons v vs =>
      simp only [nodupStrs, Bool.and_eq_true, Bool.not_eq_true'] at hnd
      simp only [List.zip_cons_cons, List.foldl_cons, hnc c (by simp), Bool.false_eq_true,
        if_false]
      rw [ih vs (acc ++ [c]) (by simpa using hlen) hnd.2 ?_]
      · simp
      · intro c2 hc2
        apply Bool.eq_false_iff.mpr
        intro hmem
        obtain ⟨a2, ha2, hbeq⟩ := List.contains_iff_exists_mem_beq.mp hmem
        simp only [beq_iff_eq] at hbeq
        subst hbeq
        rcases List.mem_append.mp ha2 with h1 | h1
        · have hk := hnc c2 (by simp [hc2])
          have h2 : acc.contains c2 = true :=
            List.contains_iff_exists_mem_beq.mpr ⟨c2, h1, by simp⟩
          rw [h2] at hk
          cases hk
        · simp only [List.mem_singleton] at h1
          subst h1
          have h2 : cs.contains c2 = true :=
            List.contains_iff_exists_mem_beq.mpr ⟨c2, hc2, by simp⟩
          have hk := hnd.1
          rw [h2] at hk
          cases hk

theorem keyUnion_const_records {cols : List PyString} {rows : List (List PyVal)}
    (hnd : nodupStrs cols = true) (hlen : ∀ r ∈ rows, r.length = cols.length)
    (hne : rows ≠ []) :
    keyUnion (rows.map (fun r => List.zip cols r)) = cols := by
  cases rows with
  | nil => exact absurd rfl hne
  | cons r rows2 =>
    simp only [List.map_cons, keyUnion, List.foldl_cons]
    rw [innerKeyFold_zip cols r [] (hlen r (by simp)) hnd (by intro c _; rfl)]
    simp only [List.nil_append]
    have : ∀ (recs : List (List (PyString × PyVal))) (acc : List PyString),
        (∀ rec ∈ recs, ∀ kv ∈ rec, acc.contains kv.1 = true) →
        List.foldl (fun acc2 rec => rec.foldl
          (fun a kv => if a.contains kv.1 then a else a ++ [kv.1]) acc2) acc recs = acc := by
      intro recs
      induction recs with
      | nil => intro acc _; rfl
      | cons rec recs2 ih2 =>
        intro acc h
        simp only [List.foldl_cons]
        rw [innerKeyFold_all_mem rec acc (h rec (by simp))]
        exact ih2 acc (fun rec2 hrec2 => h rec2 (by simp [hrec2]))
    apply this
    intro rec hrec kv hkv
    obtain ⟨r2, hr2, hr2e⟩ := List.mem_map.mp hrec
    rw [← hr2e] at hkv
    have hc : kv.1 ∈ cols := (List.of_mem_zip hkv).1
    exact List.contains_iff_exists_mem_beq.mpr ⟨kv.1, hc, by simp⟩

theorem wfDf_parts {df : DataFrame} (h : wfDf df = true) :
    nodupStrs df.cols = true ∧
    (∀ r ∈ df.rows, r.length = df.cols.length) ∧
    (∀ r ∈ df.rows, ∀ x ∈ r, wfVal x = true) := by
  simp only [wfDf, Bool.and_eq_true, List.all_eq_true] at h
  refine ⟨h.1, ?_, ?_⟩
  · intro r hr
    have := h.2 r hr
    simp only [Bool.and_eq_true, beq_iff_eq] at this
    exact this.1
  · intro r hr x hx
    have := h.2 r hr
    simp only [Bool.and_eq_true, List.all_eq_true] at this
    exact this.2 x hx

theorem wfVal_recordsVal {df : DataFrame} (hwf : wfDf df = true) :
    wfVal (recordsVal df) = true := by
  obtain ⟨hnd, hlen, hcell⟩ := wfDf_parts hwf
  simp only [recordsVal, wfVal]
  apply wfValList_of_mem
  intro x hx
  obtain ⟨r, hr, rfl⟩ := List.mem_map.mp hx
  simp only [rowRecord, wfVal, Bool.and_eq_true]
  constructor
  · apply nodupKeys_of_nodupStrs
    rw [zip_keys_eq (hlen r hr)]
    exact hnd
  · apply wfValDict_of_mem
    intro kv hkv
    exact hcell r hr kv.2 (List.of_mem_zip (by exact hkv)).2

theorem handleParsed_recordsVal {df : DataFrame} (hwf : wfDf df = true)
    (hne : df.rows ≠ []) :
    handleParsed (recordsVal df) = .ok df := by
  obtain ⟨hnd, hlen, _⟩ := wfDf_parts hwf
  cases df with
  | mk cols rows =>
    cases rows with
    | nil => exact absurd rfl hne
    | cons r rows2 =>
      simp only [recordsVal, List.map_cons, handleParsed]
      rw [if_pos ?hall]
      case hall =>
        rw [List.all_eq_true]
        intro x hx
        rcases List.mem_cons.mp hx with rfl | hx2
        · rfl
        · obtain ⟨r2, _, rfl⟩ := List.mem_map.mp hx2
          rfl
      have hrec : recOf (rowRecord cols r) :: List.map recOf (List.map (rowRecord cols) rows2) =
          List.map (fun r2 => List.zip cols r2) (r :: rows2) := by
        simp only [List.map_map, List.map_cons]
        rfl
      rw [hrec]
      simp only [dfFromRecords]
      rw [keyUnion_const_records hnd (by simpa using hlen) (by simp)]
      simp only [Except.ok.injEq, DataFrame.mk.injEq, true_and]
      rw [List.map_map]
      refine (List.map_congr_left ?_).trans (List.map_id _)
      intro r2 hr2
      simp only [Function.comp_apply, id_eq]
      exact map_recGet_zip hnd (hlen r2 (by simpa using hr2))

theorem normalize_serialize {fs : Fs} {rc : PyString → DfResult} {fuel : Nat}
    {df : DataFrame} (hwf : wfDf df = true) (hne : df.rows ≠ [])
    (hfile : fsRead fs (serialize df) = Option.none) :
    json_to_dataframe fs rc fuel (.str (serialize df)) = .ok df := by
  have hser0 : serialize df = emitVal (recordsVal df) := by
    unfold serialize
    rw [if_neg]
    intro hcon
    exact hne (List.isEmpty_iff.mp hcon)
  have hshape : ∃ mid, serialize df = 91 :: (mid ++ [93]) := by
    rw [hser0]
    cases df with
    | mk cols rows =>
      cases rows with
      | nil => exact absurd rfl hne
      | cons r rows2 =>
        refine ⟨emitVal (rowRecord cols r) ++ emitListRest (rows2.map (rowRecord cols)), ?_⟩
        simp [recordsVal, emitVal]
  obtain ⟨mid, hser⟩ := hshape
  have hstrip : pyStrip (serialize df) = serialize df := by
    rw [hser]
    simp only [pyStrip]
    rw [List.dropWhile_cons]
    rw [show pyStrip.stripWs 91 = false from rfl]
    simp only [Bool.false_eq_true, if_false]
    have hrev : (91 :: (mid ++ [93])).reverse = 93 :: (mid.reverse ++ [91]) := by
      simp
    rw [hrev, List.dropWhile_cons]
    rw [show pyStrip.stripWs 93 = false from rfl]
    simp
  have hcsv : looksLikeCsv (serialize df) = false := by
    have hopen : startsWithOpen (pyStrip (serialize df)) = true := by
      rw [hstrip, hser]
      rfl
    simp [looksLikeCsv, hopen]
  have hloads : loads (serialize df) = some (recordsVal df) := by
    rw [hser0]
    exact loads_emit (wfVal_recordsVal hwf)
  simp only [json_to_dataframe, hfile, hcsv, Bool.false_eq_true, if_false, hloads]
  exact handleParsed_recordsVal hwf hne

/-! ## The json.loads model only produces well-formed values -/

theorem keys_pyDictInsert_mem {d : List (PyString × PyVal)} {k : PyString} {v : PyVal}
    (h : d.any (fun kv => kv.1 == k) = true) :
    (pyDictInsert d k v).map Prod.fst = d.map Prod.fst := by
  simp only [pyDictInsert, h, if_true, List.map_map]
  apply List.map_congr_left
  intro kv _
  simp only [Function.comp_apply]
  split <;> rfl

theorem nodupKeys_append_one {d : List (PyString × PyVal)} {k : PyString} {v : PyVal}
    (hnd : nodupKeys d = true) (h : d.any (fun kv => kv.1 == k) = false) :
    nodupKeys (d ++ [(k, v)]) = true := by
  induction d with
  | nil => rfl
  | cons kv2 d2 ih =>
    simp only [nodupKeys, Bool.and_eq_true, Bool.not_eq_true'] at hnd
    simp only [List.any_cons, Bool.or_eq_false_iff] at h
    simp only [List.cons_append, nodupKeys, Bool.and_eq_true, Bool.not_eq_true']
    refine ⟨?_, ih hnd.2 h.2⟩
    rw [List.any_eq_false]
    intro kv3 hkv3
    rcases List.mem_append.mp hkv3 with h3 | h3
    · exact List.any_eq_false.mp hnd.1 kv3 h3
    · simp only [List.mem_singleton] at h3
      subst h3
      have := h.1
      simp only [beq_eq_false_iff_ne, ne_eq] at this
      simp only [beq_iff_eq]
      exact fun he => this he.symm

theorem nodupKeys_pyDictInsert {d : List (PyString × PyVal)} {k : PyString} {v : PyVal}
    (h : nodupKeys d = true) : nodupKeys (pyDictInsert d k v) = true := by
  by_cases hmem : d.any (fun kv => kv.1 == k) = true
  · apply nodupKeys_of_nodupStrs
    rw [keys_pyDictInsert_mem hmem]
    exact nodupStrs_of_nodupKeys d h
  · rw [show pyDictInsert d k v = d ++ [(k, v)] from by
      simp only [pyDictInsert, hmem, Bool.false_eq_true, if_false]]
    exact nodupKeys_append_one h (Bool.not_eq_true _ ▸ hmem)

theorem mem_pyDictInsert_val {d : List (PyString × PyVal)} {k : PyString} {v : PyVal}
    {kv : PyString × PyVal} (h : kv ∈ pyDictInsert d k v) :
    (∃ kv2 ∈ d, kv.2 = kv2.2) ∨ kv.2 = v := by
  by_cases hmem : d.any (fun kv2 => kv2.1 == k) = true
  · simp only [pyDictInsert, hmem, if_true] at h
    obtain ⟨kv2, hkv2, hkv2e⟩ := List.mem_map.mp h
    by_cases h2 : (kv2.1 == k) = true
    · rw [if_pos h2] at hkv2e
      right
      rw [← hkv2e]
    · rw [if_neg h2] at hkv2e
      left
      exact ⟨kv2, hkv2, by rw [← hkv2e]⟩
  · simp only [pyDictInsert, hmem, Bool.false_eq_true, if_false] at h
    rcases List.mem_append.mp h with h2 | h2
    · exact Or.inl ⟨kv, h2, rfl⟩
    · simp only [List.mem_singleton] at h2
      right
      rw [h2]

theorem dictFold_facts :
    ∀ (pairs acc : List (PyString × PyVal)), nodupKeys acc = true →
    nodupKeys (pairs.foldl (fun a kv => pyDictInsert a kv.1 kv.2) acc) = true ∧
    (∀ kv ∈ pairs.foldl (fun a kv => pyDictInsert a kv.1 kv.2) acc,
      (∃ kv2 ∈ acc, kv.2 = kv2.2) ∨ (∃ kv2 ∈ pairs, kv.2 = kv2.2)) := by
  intro pairs
  induction pairs with
  | nil =>
    intro acc hacc
    exact ⟨hacc, fun kv hkv => Or.inl ⟨kv, hkv, rfl⟩⟩
  | cons p ps ih =>
    intro acc hacc
    simp only [List.foldl_cons]
    obtain ⟨ih1, ih2⟩ := ih (pyDictInsert acc p.1 p.2) (nodupKeys_pyDictInsert hacc)
    refine ⟨ih1, ?_⟩
    intro kv hkv
    rcases ih2 kv hkv with ⟨kv2, hkv2, he⟩ | ⟨kv2, hkv2, he⟩
    · rcases mem_pyDictInsert_val hkv2 with ⟨kv3, hkv3, he2⟩ | he2
      · exact Or.inl ⟨kv3, hkv3, by rw [he, he2]⟩
      · exact Or.inr ⟨p, by simp, by rw [he, he2]⟩
    · exact Or.inr ⟨kv2, by simp [hkv2], he⟩

theorem dictFinish_wf {pairs : List (PyString × PyVal)}
    (h : ∀ kv ∈ pairs, wfVal kv.2 = true) :
    nodupKeys (dictFinish pairs) = true ∧ ∀ kv ∈ dictFinish pairs, wfVal kv.2 = true := by
  obtain ⟨h1, h2⟩ := dictFold_facts pairs [] rfl
  refine ⟨h1, ?_⟩
  intro kv hkv
  rcases h2 kv hkv with ⟨kv2, hkv2, _⟩ | ⟨kv2, hkv2, he⟩
  · cases hkv2
  · rw [he]
    exact h kv2 hkv2

theorem parse_wf : ∀ (f : Nat),
    (∀ cs v r, parseValue f cs = some (v, r) → wfVal v = true) ∧
    (∀ cs acc out r, (∀ x ∈ acc, wfVal x = true) →
      parseArrayLoop f cs acc = some (out, r) → ∀ x ∈ out, wfVal x = true) ∧
    (∀ cs acc out r, (∀ kv ∈ acc, wfVal kv.2 = true) →
      parseObjectLoop f cs acc = some (out, r) → ∀ kv ∈ out, wfVal kv.2 = true) := by
  intro f
  induction f with
  | zero =>
    refine ⟨?_, ?_, ?_⟩
    · intro cs v r h
      simp [parseValue] at h
    · intro cs acc out r _ h
      simp [parseArrayLoop] at h
    · intro cs acc out r _ h
      simp [parseObjectLoop] at h
  | succ f ih =>
    obtain ⟨ih1, ih2, ih3⟩ := ih
    refine ⟨?_, ?_, ?_⟩
    · intro cs v r h
      cases cs with
      | nil => simp [parseValue] at h
      | cons c rest =>
        simp only [parseValue] at h
        by_cases h34 : (c == 34) = true
        · rw [if_pos h34] at h
          rcases hs : scanString rest with _ | ⟨⟨s, r2⟩⟩ <;> rw [hs] at h
          · cases h
          · simp only [Option.some.injEq, Prod.mk.injEq] at h
            rw [← h.1]
            rfl
        · rw [if_neg h34] at h
          by_cases h123 : (c == 123) = true
          · rw [if_pos h123] at h
            split at h
            · simp only [Option.some.injEq, Prod.mk.injEq] at h
              rw [← h.1]
              rfl
            · rcases hol : parseObjectLoop f _ ([] : List (PyString × PyVal))
                with _ | ⟨⟨pairs, r2⟩⟩ <;> rw [hol] at h
              · cases h
              · simp only [Option.some.injEq, Prod.mk.injEq] at h
                rw [← h.1]
                have hvals := ih3 _ [] pairs r2 (by intro kv hkv; cases hkv) hol
                obtain ⟨hd1, hd2⟩ := dictFinish_wf hvals
                simp only [wfVal, Bool.and_eq_true]
                exact ⟨hd1, wfValDict_of_mem hd2⟩
          · rw [if_neg h123] at h
            by_cases h91 : (c == 91) = true
            · rw [if_pos h91] at h
              split at h
              · simp only [Option.some.injEq, Prod.mk.injEq] at h
                rw [← h.1]
                rfl
              · rcases hal : parseArrayLoop f _ ([] : List PyVal)
                  with _ | ⟨⟨vs, r2⟩⟩ <;> rw [hal] at h
                · cases h
                · simp only [Option.some.injEq, Prod.mk.injEq] at h
                  rw [← h.1]
                  have hvals := ih2 _ [] vs r2 (by intro x hx; cases hx) hal
                  simp only [wfVal]
                  exact wfValList_of_mem hvals
            · rw [if_neg h91] at h
              by_cases h110 : (c == 110) = true
              · rw [if_pos h110] at h
                simp only [Option.map_eq_some'] at h
                obtain ⟨r2, _, he⟩ := h
                simp only [Prod.mk.injEq] at he
                rw [← he.1]
                rfl
              · rw [if_neg h110] at h
                by_cases h116 : (c == 116) = true
                · rw [if_pos h116] at h
                  simp only [Option.map_eq_some'] at h
                  obtain ⟨r2, _, he⟩ := h
                  simp only [Prod.mk.injEq] at he
                  rw [← he.1]
                  rfl
                · rw [if_neg h116] at h
                  by_cases h102 : (c == 102) = true
                  · rw [if_pos h102] at h
                    simp only [Option.map_eq_some'] at h
                    obtain ⟨r2, _, he⟩ := h
                    simp only [Prod.mk.injEq] at he
                    rw [← he.1]
                    rfl
                  · rw [if_neg h102] at h
                    by_cases h78 : (c == 78) = true
                    · rw [if_pos h78] at h
                      simp only [Option.map_eq_some'] at h
                      obtain ⟨r2, _, he⟩ := h
                      simp only [Prod.mk.injEq] at he
                      rw [← he.1]
                      rfl
                    · rw [if_neg h78] at h
                      by_cases h73 : (c == 73) = true
                      · rw [if_pos h73] at h
                        simp only [Option.map_eq_some'] at h
                        obtain ⟨r2, _, he⟩ := h
                        simp only [Prod.mk.injEq] at he
                        rw [← he.1]
                        rfl
                      · rw [if_neg h73] at h
                        by_cases h45 : (c == 45) = true
                        · rw [if_pos h45] at h
                          split at h
                          · simp only [Option.some.injEq, Prod.mk.injEq] at h
                            rw [← h.1]
                            rfl
                          · simp only [Option.map_eq_some'] at h
                            obtain ⟨⟨tok, r2⟩, hsn, he⟩ := h
                            simp only [Prod.mk.injEq] at he
                            rw [← he.1]
                            simp only [wfVal, wfNumTok, Bool.or_eq_true]
                            exact Or.inr (scanNum_wf_output hsn)
                        · rw [if_neg h45] at h
                          simp only [Option.map_eq_some'] at h
                          obtain ⟨⟨tok, r2⟩, hsn, he⟩ := h
                          simp only [Prod.mk.injEq] at he
                          rw [← he.1]
                          simp only [wfVal, wfNumTok, Bool.or_eq_true]
                          exact Or.inr (scanNum_wf_output hsn)
    · intro cs acc out r hacc h
      simp only [parseArrayLoop] at h
      rcases hpv : parseValue f cs with _ | ⟨⟨v0, r0⟩⟩ <;> rw [hpv] at h <;>
        dsimp only at h
      · cases h
      · have hv0 : wfVal v0 = true := ih1 cs v0 r0 hpv
        have haccv : ∀ x ∈ acc ++ [v0], wfVal x = true := by
          intro x hx
          rcases List.mem_append.mp hx with h2 | h2
          · exact hacc x h2
          · simp only [List.mem_singleton] at h2
            rw [h2]
            exact hv0
        split at h
        · simp only [Option.some.injEq, Prod.mk.injEq] at h
          intro x hx
          rw [← h.1] at hx
          exact haccv x hx
        · exact ih2 _ _ out r haccv h
        · cases h
    · intro cs acc out r hacc h
      simp only [parseObjectLoop] at h
      split at h
      · rename_i r0
        rcases hs : scanString r0 with _ | ⟨⟨k, r1⟩⟩ <;> rw [hs] at h <;>
          dsimp only at h
        · cases h
        · split at h
          · rcases hpv : parseValue f _ with _ | ⟨⟨v0, r3⟩⟩ <;> rw [hpv] at h <;>
              dsimp only at h
            · cases h
            · have hv0 : wfVal v0 = true := ih1 _ v0 r3 hpv
              have haccv : ∀ kv ∈ acc ++ [(k, v0)], wfVal kv.2 = true := by
                intro kv hkv
                rcases List.mem_append.mp hkv with h2 | h2
                · exact hacc kv h2
                · simp only [List.mem_singleton] at h2
                  rw [h2]
                  exact hv0
              split at h
              · simp only [Option.some.injEq, Prod.mk.injEq] at h
                intro kv hkv
                rw [← h.1] at hkv
                exact haccv kv hkv
              · exact ih3 _ _ out r haccv h
              · cases h
          · cases h
      · cases h

theorem strContains_iff {l : List PyString} {k : PyString} :
    l.contains k = true ↔ k ∈ l := by
  rw [List.contains_iff_exists_mem_beq]
  constructor
  · rintro ⟨x, hx, hbeq⟩
    have : k = x := by simpa using hbeq
    rw [this]
    exact hx
  · intro h
    exact ⟨k, h, by simp⟩

theorem nodupStrs_append_one {l : List PyString} {k : PyString}
    (h : nodupStrs l = true) (hk : l.contains k = false) :
    nodupStrs (l ++ [k]) = true := by
  induction l with
  | nil => rfl
  | cons s rest ih =>
    simp only [nodupStrs, Bool.and_eq_true, Bool.not_eq_true'] at h
    simp only [List.contains_cons, Bool.or_eq_false_iff] at hk
    obtain ⟨hks, hkr⟩ := hk
    simp only [List.cons_append, nodupStrs, Bool.and_eq_true, Bool.not_eq_true']
    refine ⟨?_, ih h.2 hkr⟩
    cases hcr : (rest ++ [k]).contains s with
    | false => rfl
    | true =>
      have hm : s ∈ rest ++ [k] := strContains_iff.mp hcr
      rcases List.mem_append.mp hm with h2 | h2
      · have hT := strContains_iff.mpr h2
        rw [h.1] at hT
        cases hT
      · simp only [List.mem_singleton] at h2
        have hks2 : (k == s) = true := by rw [h2]; simp
        rw [hks2] at hks
        cases hks

theorem keyUnion_inner_nodup :
    ∀ (r : List (PyString × PyVal)) (acc : List PyString), nodupStrs acc = true →
    nodupStrs (r.foldl
      (fun acc2 kv => if acc2.contains kv.1 then acc2 else acc2 ++ [kv.1]) acc) = true := by
  intro r
  induction r with
  | nil => intro acc h; exact h
  | cons kv rest ih =>
    intro acc h
    simp only [List.foldl_cons]
    by_cases hc : acc.contains kv.1 = true
    · rw [if_pos hc]
      exact ih acc h
    · rw [if_neg hc]
      exact ih _ (nodupStrs_append_one h (Bool.not_eq_true _ ▸ hc))

theorem keyUnion_nodup (recs : List (List (PyString × PyVal))) :
    nodupStrs (keyUnion recs) = true := by
  have hgen : ∀ (rs : List (List (PyString × PyVal))) (acc : List PyString),
      nodupStrs acc = true →
      nodupStrs (rs.foldl
        (fun acc r => r.foldl
          (fun acc2 kv => if acc2.contains kv.1 then acc2 else acc2 ++ [kv.1]) acc) acc)
        = true := by
    intro rs
    induction rs with
    | nil => intro acc h; exact h
    | cons r rest ih =>
      intro acc h
      simp only [List.foldl_cons]
      exact ih _ (keyUnion_inner_nodup r acc h)
  exact hgen recs [] rfl

theorem recGet_wf {r : List (PyString × PyVal)} (h : wfValDict r = true)
    (k : PyString) : wfVal (recGet r k) = true := by
  unfold recGet
  rcases hf : r.find? (fun kv => kv.1 == k) with _ | kv <;> rw [hf]
  · rfl
  · exact wfValDict_mem h kv (List.mem_of_find?_eq_some hf)

theorem getD_wf {l : List PyVal} (h : ∀ x ∈ l, wfVal x = true) (i : Nat) :
    wfVal (l.getD i PyVal.none) = true := by
  induction l generalizing i with
  | nil => cases i <;> rfl
  | cons x xs ih =>
    cases i with
    | zero => exact h x (List.mem_cons_self x xs)
    | succ j =>
      exact ih (fun y hy => h y (List.mem_cons_of_mem x hy)) j

theorem handleParsed_wf {v : PyVal} {df : DataFrame}
    (hok : handleParsed v = .ok df) (hwf : wfVal v = true) : wfDf df = true := by
  cases v with
  | none => cases hok
  | bool b => cases hok
  | num t => cases hok
  | str s => cases hok
  | list xs =>
    cases xs with
    | nil => cases hok
    | cons x xs2 =>
      simp only [handleParsed] at hok
      by_cases hall : (x :: xs2).all isDictVal = true
      · rw [if_pos hall] at hok
        simp only [Except.ok.injEq] at hok
        rw [← hok]
        have helems : ∀ y ∈ x :: xs2, wfVal y = true := wfValList_mem hwf
        simp only [wfDf, dfFromRecords, Bool.and_eq_true]
        constructor
        · exact keyUnion_nodup _
        · rw [List.all_eq_true]
          intro row hrow
          simp only [List.mem_map] at hrow
          obtain ⟨rec, hrec, hroweq⟩ := hrow
          rw [← hroweq]
          simp only [List.length_map, beq_self_eq_true, Bool.true_and]
          rw [List.all_eq_true]
          intro cell hcell
          simp only [List.mem_map] at hcell
          obtain ⟨c, _, hcelleq⟩ := hcell
          rw [← hcelleq]
          obtain ⟨y, hy, hreceq⟩ := hrec
          have hwfy := helems y hy
          have hdy : isDictVal y = true := (List.all_eq_true.mp hall) y hy
          cases y with
          | dict kvs =>
            simp only [wfVal, Bool.and_eq_true] at hwfy
            rw [← hreceq]
            exact recGet_wf hwfy.2 c
          | none => cases hdy
          | bool b => cases hdy
          | num t => cases hdy
          | str s => cases hdy
          | list l => cases hdy
      · rw [if_neg hall] at hok
        cases hok
  | dict kvs =>
    cases kvs with
    | nil => cases hok
    | cons kv kvs2 =>
      simp only [handleParsed] at hok
      by_cases hall : (kv :: kvs2).all (fun e => isListVal e.2) = true
      · rw [if_pos hall] at hok
        by_cases hsl : sameLengths (((kv :: kvs2).map
            (fun e => (e.1, listOf e.2))).map Prod.snd) = true
        · rw [if_pos hsl] at hok
          simp only [Except.ok.injEq] at hok
          rw [← hok]
          simp only [wfVal, Bool.and_eq_true] at hwf
          simp only [wfDf, dfFromColumns, Bool.and_eq_true]
          constructor
          · rw [List.map_map]
            exact nodupStrs_of_nodupKeys _ hwf.1
          · rw [List.all_eq_true]
            intro row hrow
            simp only [List.mem_map] at hrow
            obtain ⟨i, _, hroweq⟩ := hrow
            rw [← hroweq]
            simp only [List.length_map, beq_self_eq_true, Bool.true_and]
            rw [List.all_eq_true]
            intro cell hcell
            simp only [List.mem_map] at hcell
            obtain ⟨c, hc, hcelleq⟩ := hcell
            rw [← hcelleq]
            obtain ⟨e, he, hceq⟩ := hc
            have hwfe := wfValDict_mem hwf.2 e he
            have hle : isListVal e.2 = true := by
              have := (List.all_eq_true.mp hall) e he
              simpa using this
            rw [← hceq]
            dsimp only
            cases hv2 : e.2 with
            | list l =>
              rw [hv2] at hwfe
              simp only [wfVal] at hwfe
              simp only [listOf]
              exact getD_wf (wfValList_mem hwfe) i
            | none => rw [hv2] at hle; cases hle
            | bool b => rw [hv2] at hle; cases hle
            | num t => rw [hv2] at hle; cases hle
            | str s => rw [hv2] at hle; cases hle
            | dict d => rw [hv2] at hle; cases hle
        · rw [if_neg hsl] at hok
          cases hok
      · rw [if_neg hall] at hok
        cases hok

theorem loads_wf {s : PyString} {v : PyVal} (h : loads s = some v) :
    wfVal v = true := by
  unfold loads at h
  rcases hp : parseValue (2 * s.length + 4) (skipWs s) with _ | ⟨⟨v0, r⟩⟩ <;>
    rw [hp] at h <;> dsimp only at h
  · cases h
  · by_cases he : (skipWs r).isEmpty = true
    · rw [if_pos he] at h
      simp only [Option.some.injEq] at h
      rw [← h]
      exact (parse_wf _).1 _ _ _ hp
    · rw [if_neg he] at h
      cases h

theorem wf_normalize {fs : Fs} {rc : PyString → DfResult} {fuel : Nat}
    {v : PyVal} {df : DataFrame} (hwfv : wfVal v = true)
    (hrc : ∀ p d, rc p = .ok d → wfDf d = true)
    (h : json_to_dataframe fs rc fuel v = .ok df) : wfDf df = true := by
  induction fuel generalizing v with
  | zero =>
    cases v with
    | str s =>
      simp only [json_to_dataframe] at h
      rcases hf : fsRead fs s with _ | content <;> rw [hf] at h <;> dsimp only at h
      · by_cases hcsv : looksLikeCsv s = true
        · rw [if_pos hcsv] at h
          cases h
        · rw [if_neg hcsv] at h
          rcases hl : loads s with _ | parsed <;> rw [hl] at h <;> dsimp only at h
          · cases h
          · exact handleParsed_wf h (loads_wf hl)
      · by_cases hsc : dotCsv.isSuffixOf s = true
        · rw [if_pos hsc] at h
          exact hrc s df h
        · rw [if_neg hsc] at h
          by_cases hsj : dotJson.isSuffixOf s = true
          · rw [if_pos hsj] at h
            rcases hl : loads content with _ | fileData <;> rw [hl] at h <;>
              dsimp only at h
            · cases h
            · cases h
          · rw [if_neg hsj] at h
            cases h
    | none => cases h
    | bool b => cases h
    | num t => cases h
    | list xs => exact handleParsed_wf h hwfv
    | dict kvs => exact handleParsed_wf h hwfv
  | succ n ih =>
    cases v with
    | str s =>
      simp only [json_to_dataframe] at h
      rcases hf : fsRead fs s with _ | content <;> rw [hf] at h <;> dsimp only at h
      · by_cases hcsv : looksLikeCsv s = true
        · rw [if_pos hcsv] at h
          cases h
        · rw [if_neg hcsv] at h
          rcases hl : loads s with _ | parsed <;> rw [hl] at h <;> dsimp only at h
          · cases h
          · exact handleParsed_wf h (loads_wf hl)
      · by_cases hsc : dotCsv.isSuffixOf s = true
        · rw [if_pos hsc] at h
          exact hrc s df h
        · rw [if_neg hsc] at h
          by_cases hsj : dotJson.isSuffixOf s = true
          · rw [if_pos hsj] at h
            rcases hl : loads content with _ | fileData <;> rw [hl] at h <;>
              dsimp only at h
            · cases h
            · exact ih (loads_wf hl) h
          · rw [if_neg hsj] at h
            cases h
    | none => cases h
    | bool b => cases h
    | num t => cases h
    | list xs => exact handleParsed_wf h hwfv
    | dict kvs => exact handleParsed_wf h hwfv

theorem handleParsed_emptyCols {cols : List PyString} (hne : cols ≠ []) :
    handleParsed (.dict (cols.map (fun c => (c, PyVal.list [])))) =
      .ok ⟨cols, []⟩ := by
  cases cols with
  | nil => exact absurd rfl hne
  | cons c cs =>
    simp only [List.map_cons, handleParsed]
    rw [if_pos ?hall]
    case hall =>
      rw [List.all_eq_true]
      intro e he
      rcases List.mem_cons.mp he with rfl | he2
      · rfl
      · obtain ⟨x, _, rfl⟩ := List.mem_map.mp he2
        rfl
    rw [if_pos ?hlen]
    case hlen =>
      simp only [List.map_cons, List.map_map, listOf, sameLengths, Function.comp]
      rw [List.all_eq_true]
      intro m hm
      obtain ⟨x, _, rfl⟩ := List.mem_map.mp hm
      rfl
    simp [dfFromColumns, List.map_map, Function.comp, listOf]
    refine (List.map_congr_left ?_).trans (List.map_id cs)
    intro x _
    rfl

theorem normalize_serialize_empty {fs : Fs} {rc : PyString → DfResult} {fuel : Nat}
    {df : DataFrame} (hwf : wfDf df = true) (hrows : df.rows = [])
    (hcols : df.cols ≠ [])
    (hfile : fsRead fs (serialize df) = Option.none) :
    json_to_dataframe fs rc fuel (.str (serialize df)) = .ok df := by
  obtain ⟨cols, rows⟩ := df
  dsimp only at hrows hcols
  subst hrows
  have hser0 : serialize ⟨cols, []⟩ =
      emitVal (.dict (cols.map (fun c => (c, PyVal.list [])))) := by
    unfold serialize
    rfl
  have hwfd : wfVal (.dict (cols.map (fun c => (c, PyVal.list [])))) = true := by
    simp only [wfVal, Bool.and_eq_true]
    refine ⟨?_, ?_⟩
    · apply nodupKeys_of_nodupStrs
      have hmf : (cols.map (fun c => (c, PyVal.list []))).map Prod.fst = cols := by
        rw [List.map_map]
        refine (List.map_congr_left ?_).trans (List.map_id cols)
        intro x _
        rfl
      rw [hmf]
      exact (wfDf_parts hwf).1
    · apply wfValDict_of_mem
      intro kv hkv
      obtain ⟨c, _, rfl⟩ := List.mem_map.mp hkv
      rfl
  have hshape : ∃ mid, serialize ⟨cols, []⟩ = 123 :: (mid ++ [125]) := by
    rw [hser0]
    cases cols with
    | nil => exact absurd rfl hcols
    | cons c cs =>
      simp only [List.map_cons, emitVal]
      exact ⟨emitStr c ++ (58 :: (emitVal (.list []) ++
        emitDictRest (cs.map (fun c => (c, PyVal.list []))))), by simp [emitVal]⟩
  obtain ⟨mid, hser⟩ := hshape
  have hstrip : pyStrip (serialize ⟨cols, []⟩) = serialize ⟨cols, []⟩ := by
    rw [hser]
    simp only [pyStrip]
    rw [List.dropWhile_cons]
    rw [show pyStrip.stripWs 123 = false from rfl]
    simp only [Bool.false_eq_true, if_false]
    have hrev : (123 :: (mid ++ [125])).reverse = 125 :: (mid.reverse ++ [123]) := by
      simp
    rw [hrev, List.dropWhile_cons]
    rw [show pyStrip.stripWs 125 = false from rfl]
    simp
  have hcsv : looksLikeCsv (serialize ⟨cols, []⟩) = false := by
    have hopen : startsWithOpen (pyStrip (serialize ⟨cols, []⟩)) = true := by
      rw [hstrip, hser]
      rfl
    simp [looksLikeCsv, hopen]
  have hloads : loads (serialize ⟨cols, []⟩) =
      some (.dict (cols.map (fun c => (c, PyVal.list [])))) := by
    rw [hser0]
    exact loads_emit hwfd
  simp only [json_to_dataframe, hfile, hcsv, Bool.false_eq_true, if_false, hloads]
  exact handleParsed_emptyCols hcols

theorem handleParsed_cols_ne {v : PyVal} {df : DataFrame}
    (h : handleParsed v = .ok df) (hrows : df.rows = []) : df.cols ≠ [] := by
  cases v with
  | none => cases h
  | bool b => cases h
  | num t => cases h
  | str s => cases h
  | list xs =>
    cases xs with
    | nil => cases h
    | cons x xs2 =>
      simp only [handleParsed] at h
      by_cases hall : (x :: xs2).all isDictVal = true
      · rw [if_pos hall] at h
        simp only [Except.ok.injEq] at h
        rw [← h] at hrows
        simp only [dfFromRecords, List.map_cons] at hrows
        cases hrows
      · rw [if_neg hall] at h
        cases h
  | dict kvs =>
    cases kvs with
    | nil => cases h
    | cons kv kvs2 =>
      simp only [handleParsed] at h
      by_cases hall : (kv :: kvs2).all (fun e => isListVal e.2) = true
      · rw [if_pos hall] at h
        by_cases hsl : sameLengths (((kv :: kvs2).map
            (fun e => (e.1, listOf e.2))).map Prod.snd) = true
        · rw [if_pos hsl] at h
          simp only [Except.ok.injEq] at h
          rw [← h]
          simp [dfFromColumns]
        · rw [if_neg hsl] at h
          cases h
      · rw [if_neg hall] at h
        cases h

theorem normalize_cols_ne {fs : Fs} {rc : PyString → DfResult} {fuel : Nat}
    {v : PyVal} {df : DataFrame}
    (hrc : ∀ p d, rc p = .ok d → d.rows = [] → d.cols ≠ [])
    (h : json_to_dataframe fs rc fuel v = .ok df) (hrows : df.rows = []) :
    df.cols ≠ [] := by
  induction fuel generalizing v with
  | zero =>
    cases v with
    | str s =>
      simp only [json_to_dataframe] at h
      rcases hf : fsRead fs s with _ | content <;> rw [hf] at h <;> dsimp only at h
      · by_cases hcsv : looksLikeCsv s = true
        · rw [if_pos hcsv] at h
          cases h
        · rw [if_neg hcsv] at h
          rcases hl : loads s with _ | parsed <;> rw [hl] at h <;> dsimp only at h
          · cases h
          · exact handleParsed_cols_ne h hrows
      · by_cases hsc : dotCsv.isSuffixOf s = true
        · rw [if_pos hsc] at h
          exact hrc s df h hrows
        · rw [if_neg hsc] at h
          by_cases hsj : dotJson.isSuffixOf s = true
          · rw [if_pos hsj] at h
            rcases hl : loads content with _ | fileData <;> rw [hl] at h <;>
              dsimp only at h
            · cases h
            · cases h
          · rw [if_neg hsj] at h
            cases h
    | none => cases h
    | bool b => cases h
    | num t => cases h
    | list xs => exact handleParsed_cols_ne h hrows
    | dict kvs => exact handleParsed_cols_ne h hrows
  | succ n ih =>
    cases v with
    | str s =>
      simp only [json_to_dataframe] at h
      rcases hf : fsRead fs s with _ | content <;> rw [hf] at h <;> dsimp only at h
      · by_cases hcsv : looksLikeCsv s = true
        · rw [if_pos hcsv] at h
          cases h
        · rw [if_neg hcsv] at h
          rcases hl : loads s with _ | parsed <;> rw [hl] at h <;> dsimp only at h
          · cases h
          · exact handleParsed_cols_ne h hrows
      · by_cases hsc : dotCsv.isSuffixOf s = true
        · rw [if_pos hsc] at h
          exact hrc s df h hrows
        · rw [if_neg hsc] at h
          by_cases hsj : dotJson.isSuffixOf s = true
          · rw [if_pos hsj] at h
            rcases hl : loads content with _ | fileData <;> rw [hl] at h <;>
              dsimp only at h
            · cases h
            · exact ih h
          · rw [if_neg hsj] at h
            cases h
    | none => cases h
    | bool b => cases h
    | num t => cases h
    | list xs => exact handleParsed_cols_ne h hrows
    | dict kvs => exact handleParsed_cols_ne h hrows

/-- The characters on which a successful JSON value parse can end: a
digit (numbers), a closing quote, bracket or brace, or the final letter
of one of the literal words null, true, false, NaN, Infinity. -/
def goodEnd (c : Nat) : Bool :=
  isDigitC c || c == 34 || c == 93 || c == 125 || c == 101 || c == 108 ||
    c == 121 || c == 78

theorem scanStringAux_consume : ∀ (f : Nat) {cs s r : PyString},
    scanStringAux f cs = some (s, r) → ∃ mid, cs = mid ++ 34 :: r := by
  intro f
  induction f with
  | zero =>
    intro cs s r h
    simp [scanStringAux] at h
  | succ f ih =>
    intro cs s r h
    cases cs with
    | nil => simp [scanStringAux] at h
    | cons c rest =>
      simp only [scanStringAux] at h
      by_cases h34 : (c == 34) = true
      · rw [if_pos h34] at h
        simp only [Option.some.injEq, Prod.mk.injEq] at h
        have hc : c = 34 := by simpa using h34
        refine ⟨[], ?_⟩
        rw [hc, ← h.2]
        rfl
      · rw [if_neg h34] at h
        by_cases h92 : (c == 92) = true
        · rw [if_pos h92] at h
          have hc : c = 92 := by simpa using h92
          cases rest with
          | nil => cases h
          | cons e r2 =>
            dsimp only at h
            by_cases h117 : (e == 117) = true
            · rw [if_pos h117] at h
              have hce : e = 117 := by simpa using h117
              split at h
              · rename_i h1 h2 h3 h4 r3
                rcases hh : hex4 h1 h2 h3 h4 with _ | n1 <;> rw [hh] at h <;>
                  dsimp only at h
                · cases h
                · by_cases hsur : (0xD800 ≤ n1 && n1 ≤ 0xDBFF) = true
                  · rw [if_pos hsur] at h
                    split at h
                    · rename_i g1 g2 g3 g4 r5
                      rcases hh2 : hex4 g1 g2 g3 g4 with _ | n2 <;> rw [hh2] at h <;>
                        dsimp only at h
                      · cases h
                      · by_cases hsur2 : (0xDC00 ≤ n2 && n2 ≤ 0xDFFF) = true
                        · rw [if_pos hsur2] at h
                          simp only [Option.map_eq_some'] at h
                          obtain ⟨⟨s5, r5b⟩, hrec, he⟩ := h
                          simp only [Prod.mk.injEq] at he
                          obtain ⟨mid, hmid⟩ := ih hrec
                          refine ⟨92 :: 117 :: h1 :: h2 :: h3 :: h4 ::
                            92 :: 117 :: g1 :: g2 :: g3 :: g4 :: mid, ?_⟩
                          rw [hc, hce, ← he.2]
                          simp [hmid]
                        · rw [if_neg hsur2] at h
                          simp only [Option.map_eq_some'] at h
                          obtain ⟨⟨s5, r5b⟩, hrec, he⟩ := h
                          simp only [Prod.mk.injEq] at he
                          obtain ⟨mid, hmid⟩ := ih hrec
                          refine ⟨92 :: 117 :: h1 :: h2 :: h3 :: h4 :: mid, ?_⟩
                          rw [hc, hce, ← he.2]
                          simp [hmid]
                    · cases h
                    · simp only [Option.map_eq_some'] at h
                      obtain ⟨⟨s5, r5b⟩, hrec, he⟩ := h
                      simp only [Prod.mk.injEq] at he
                      obtain ⟨mid, hmid⟩ := ih hrec
                      refine ⟨92 :: 117 :: h1 :: h2 :: h3 :: h4 :: mid, ?_⟩
                      rw [hc, hce, ← he.2]
                      simp [hmid]
                  · rw [if_neg hsur] at h
                    simp only [Option.map_eq_some'] at h
                    obtain ⟨⟨s5, r5b⟩, hrec, he⟩ := h
                    simp only [Prod.mk.injEq] at he
                    obtain ⟨mid, hmid⟩ := ih hrec
                    refine ⟨92 :: 117 :: h1 :: h2 :: h3 :: h4 :: mid, ?_⟩
                    rw [hc, hce, ← he.2]
                    simp [hmid]
              · cases h
            · rw [if_neg h117] at h
              rcases hes : escSimple e with _ | d <;> rw [hes] at h <;> dsimp only at h
              · cases h
              · simp only [Option.map_eq_some'] at h
                obtain ⟨⟨s5, r5b⟩, hrec, he⟩ := h
                simp only [Prod.mk.injEq] at he
                obtain ⟨mid, hmid⟩ := ih hrec
                refine ⟨92 :: e :: mid, ?_⟩
                rw [hc, ← he.2]
                simp [hmid]
        · rw [if_neg h92] at h
          by_cases hlt : c < 32
          · rw [if_pos hlt] at h
            cases h
          · rw [if_neg hlt] at h
            simp only [Option.map_eq_some'] at h
            obtain ⟨⟨s5, r5b⟩, hrec, he⟩ := h
            simp only [Prod.mk.injEq] at he
            obtain ⟨mid, hmid⟩ := ih hrec
            refine ⟨c :: mid, ?_⟩
            rw [← he.2]
            simp [hmid]

theorem scanString_consume {cs s r : PyString} (h : scanString cs = some (s, r)) :
    ∃ mid, cs = mid ++ 34 :: r :=
  scanStringAux_consume _ h

theorem eq_append_last_of_getLast? {l : PyString} {d : Nat}
    (h : l.getLast? = some d) : ∃ pre, l = pre ++ [d] := by
  induction l with
  | nil => cases h
  | cons x xs ih =>
    cases xs with
    | nil =>
      simp only [List.getLast?_singleton, Option.some.injEq] at h
      exact ⟨[], by rw [h]; rfl⟩
    | cons y ys =>
      rw [List.getLast?_cons_cons] at h
      obtain ⟨pre, hpre⟩ := ih h
      exact ⟨x :: pre, by rw [List.cons_append, ← hpre]⟩

theorem scanNum_consume {cs t r : PyString} (h : scanNum cs = some (t, r)) :
    ∃ pre d, cs = pre ++ d :: r ∧ goodEnd d = true := by
  obtain ⟨hcat, hshape⟩ := scanNum_inv h
  obtain ⟨d, hlast, hdig⟩ := NumShape_last hshape
  obtain ⟨pre, hpre⟩ := eq_append_last_of_getLast? hlast
  refine ⟨pre, d, ?_, by simp [goodEnd, hdig]⟩
  rw [hcat, hpre]
  simp

theorem parse_consume : ∀ (f : Nat),
    (∀ cs v r, parseValue f cs = some (v, r) →
      ∃ pre d, cs = pre ++ d :: r ∧ goodEnd d = true) ∧
    (∀ cs acc out r, parseArrayLoop f cs acc = some (out, r) →
      ∃ pre, cs = pre ++ 93 :: r) ∧
    (∀ cs acc out r, parseObjectLoop f cs acc = some (out, r) →
      ∃ pre, cs = pre ++ 125 :: r) := by
  intro f
  induction f with
  | zero =>
    refine ⟨?_, ?_, ?_⟩
    · intro cs v r h
      simp [parseValue] at h
    · intro cs acc out r h
      simp [parseArrayLoop] at h
    · intro cs acc out r h
      simp [parseObjectLoop] at h
  | succ f ih =>
    obtain ⟨ih1, ih2, ih3⟩ := ih
    refine ⟨?_, ?_, ?_⟩
    · intro cs v r h
      cases cs with
      | nil => simp [parseValue] at h
      | cons c rest =>
        simp only [parseValue] at h
        by_cases h34 : (c == 34) = true
        · rw [if_pos h34] at h
          rcases hs : scanString rest with _ | ⟨⟨s, r2⟩⟩ <;> rw [hs] at h <;>
            dsimp only at h
          · cases h
          · simp only [Option.some.injEq, Prod.mk.injEq] at h
            obtain ⟨mid, hmid⟩ := scanString_consume hs
            refine ⟨c :: mid, 34, ?_, rfl⟩
            rw [hmid, ← h.2]
            rfl
        · rw [if_neg h34] at h
          by_cases h123 : (c == 123) = true
          · rw [if_pos h123] at h
            obtain ⟨w, hw, _⟩ := skipWs_decomp rest
            split at h
            · rename_i r2 heq
              simp only [Option.some.injEq, Prod.mk.injEq] at h
              refine ⟨c :: w, 125, ?_, rfl⟩
              rw [← h.2]
              conv_lhs => rw [hw, heq]
              simp
            · rcases hol : parseObjectLoop f _ ([] : List (PyString × PyVal))
                with _ | ⟨⟨pairs, r2⟩⟩ <;> rw [hol] at h <;> dsimp only at h
              · cases h
              · simp only [Option.some.injEq, Prod.mk.injEq] at h
                obtain ⟨pre2, hpre2⟩ := ih3 _ [] pairs r2 hol
                refine ⟨c :: (w ++ pre2), 125, ?_, rfl⟩
                rw [← h.2]
                conv_lhs => rw [hw, hpre2]
                simp
          · rw [if_neg h123] at h
            by_cases h91 : (c == 91) = true
            · rw [if_pos h91] at h
              obtain ⟨w, hw, _⟩ := skipWs_decomp rest
              split at h
              · rename_i r2 heq
                simp only [Option.some.injEq, Prod.mk.injEq] at h
                refine ⟨c :: w, 93, ?_, rfl⟩
                rw [← h.2]
                conv_lhs => rw [hw, heq]
                simp
              · rcases hal : parseArrayLoop f _ ([] : List PyVal)
                  with _ | ⟨⟨vs, r2⟩⟩ <;> rw [hal] at h <;> dsimp only at h
                · cases h
                · simp only [Option.some.injEq, Prod.mk.injEq] at h
                  obtain ⟨pre2, hpre2⟩ := ih2 _ [] vs r2 hal
                  refine ⟨c :: (w ++ pre2), 93, ?_, rfl⟩
                  rw [← h.2]
                  conv_lhs => rw [hw, hpre2]
                  simp
            · rw [if_neg h91] at h
              by_cases h110 : (c == 110) = true
              · rw [if_pos h110] at h
                simp only [Option.map_eq_some'] at h
                obtain ⟨r2, hdl, he⟩ := h
                simp only [Prod.mk.injEq] at he
                have hc : c = 110 := by simpa using h110
                have hrest := dropLit_sound hdl
                refine ⟨[110, 117, 108], 108, ?_, rfl⟩
                rw [hc, hrest, ← he.2]
                rfl
              · rw [if_neg h110] at h
                by_cases h116 : (c == 116) = true
                · rw [if_pos h116] at h
                  simp only [Option.map_eq_some'] at h
                  obtain ⟨r2, hdl, he⟩ := h
                  simp only [Prod.mk.injEq] at he
                  have hc : c = 116 := by simpa using h116
                  have hrest := dropLit_sound hdl
                  refine ⟨[116, 114, 117], 101, ?_, rfl⟩
                  rw [hc, hrest, ← he.2]
                  rfl
                · rw [if_neg h116] at h
                  by_cases h102 : (c == 102) = true
                  · rw [if_pos h102] at h
                    simp only [Option.map_eq_some'] at h
                    obtain ⟨r2, hdl, he⟩ := h
                    simp only [Prod.mk.injEq] at he
                    have hc : c = 102 := by simpa using h102
                    have hrest := dropLit_sound hdl
                    refine ⟨[102, 97, 108, 115], 101, ?_, rfl⟩
                    rw [hc, hrest, ← he.2]
                    rfl
                  · rw [if_neg h102] at h
                    by_cases h78 : (c == 78) = true
                    · rw [if_pos h78] at h
                      simp only [Option.map_eq_some'] at h
                      obtain ⟨r2, hdl, he⟩ := h
                      simp only [Prod.mk.injEq] at he
                      have hc : c = 78 := by simpa using h78
                      have hrest := dropLit_sound hdl
                      refine ⟨[78, 97], 78, ?_, rfl⟩
                      rw [hc, hrest, ← he.2]
                      rfl
                    · rw [if_neg h78] at h
                      by_cases h73 : (c == 73) = true
                      · rw [if_pos h73] at h
                        simp only [Option.map_eq_some'] at h
                        obtain ⟨r2, hdl, he⟩ := h
                        simp only [Prod.mk.injEq] at he
                        have hc : c = 73 := by simpa using h73
                        have hrest := dropLit_sound hdl
                        refine ⟨[73, 110, 102, 105, 110, 105, 116], 121, ?_, rfl⟩
                        rw [hc, hrest, ← he.2]
                        rfl
                      · rw [if_neg h73] at h
                        by_cases h45 : (c == 45) = true
                        · rw [if_pos h45] at h
                          split at h
                          · rename_i r2 heq
                            simp only [Option.some.injEq, Prod.mk.injEq] at h
                            have hc : c = 45 := by simpa using h45
                            have hrest := dropLit_sound heq
                            have hinf : infTok =
                                [73, 110, 102, 105, 110, 105, 116, 121] := rfl
                            refine ⟨[45, 73, 110, 102, 105, 110, 105, 116], 121,
                              ?_, rfl⟩
                            rw [hc, hrest, hinf, ← h.2]
                            rfl
                          · simp only [Option.map_eq_some'] at h
                            obtain ⟨⟨t, r2⟩, hsn, he⟩ := h
                            simp only [Prod.mk.injEq] at he
                            obtain ⟨pre, d, hd, hg⟩ := scanNum_consume hsn
                            refine ⟨pre, d, ?_, hg⟩
                            rw [← he.2]
                            exact hd
                        · rw [if_neg h45] at h
                          simp only [Option.map_eq_some'] at h
                          obtain ⟨⟨t, r2⟩, hsn, he⟩ := h
                          simp only [Prod.mk.injEq] at he
                          obtain ⟨pre, d, hd, hg⟩ := scanNum_consume hsn
                          refine ⟨pre, d, ?_, hg⟩
                          rw [← he.2]
                          exact hd
    · intro cs acc out r h
      simp only [parseArrayLoop] at h
      rcases hpv : parseValue f cs with _ | ⟨⟨v0, r0⟩⟩ <;> rw [hpv] at h <;>
        dsimp only at h
      · cases h
      · obtain ⟨pre0, d0, hcs, _⟩ := ih1 cs v0 r0 hpv
        obtain ⟨w, hw, _⟩ := skipWs_decomp r0
        split at h
        · rename_i r2 heq
          simp only [Option.some.injEq, Prod.mk.injEq] at h
          refine ⟨pre0 ++ d0 :: w, ?_⟩
          rw [← h.2]
          conv_lhs => rw [hcs, hw, heq]
          simp
        · rename_i r2 heq
          obtain ⟨w2, hw2, _⟩ := skipWs_decomp r2
          obtain ⟨pre2, hpre2⟩ := ih2 _ (acc ++ [v0]) out r h
          refine ⟨pre0 ++ d0 :: (w ++ 44 :: (w2 ++ pre2)), ?_⟩
          conv_lhs => rw [hcs, hw, heq, hw2, hpre2]
          simp
        · cases h
    · intro cs acc out r h
      simp only [parseObjectLoop] at h
      split at h
      · rename_i r0
        rcases hs : scanString r0 with _ | ⟨⟨k, r1⟩⟩ <;> rw [hs] at h <;>
          dsimp only at h
        · cases h
        · obtain ⟨mid, hmid⟩ := scanString_consume hs
          obtain ⟨w1, hw1, _⟩ := skipWs_decomp r1
          split at h
          · rename_i r2 heq1
            rcases hpv : parseValue f _ with _ | ⟨⟨v0, r3⟩⟩ <;> rw [hpv] at h <;>
              dsimp only at h
            · cases h
            · obtain ⟨pre3, d3, hpre3, _⟩ := ih1 _ v0 r3 hpv
              obtain ⟨w2, hw2, _⟩ := skipWs_decomp r2
              obtain ⟨w3, hw3, _⟩ := skipWs_decomp r3
              split at h
              · rename_i r4 heq3
                simp only [Option.some.injEq, Prod.mk.injEq] at h
                refine ⟨34 :: (mid ++ 34 :: (w1 ++ 58 ::
                  (w2 ++ (pre3 ++ d3 :: w3)))), ?_⟩
                rw [← h.2]
                conv_lhs => rw [hmid, hw1, heq1, hw2, hpre3, hw3, heq3]
                simp
              · rename_i r4 heq3
                obtain ⟨w4, hw4, _⟩ := skipWs_decomp r4
                obtain ⟨pre4, hpre4⟩ := ih3 _ (acc ++ [(k, v0)]) out r h
                refine ⟨34 :: (mid ++ 34 :: (w1 ++ 58 ::
                  (w2 ++ (pre3 ++ d3 :: (w3 ++ 44 :: (w4 ++ pre4)))))), ?_⟩
                conv_lhs => rw [hmid, hw1, heq1, hw2, hpre3, hw3, heq3, hw4, hpre4]
                simp
              · cases h
          · cases h
      · cases h

theorem getLast?_append_right {l1 l2 : List Nat} (h : l2 ≠ []) :
    (l1 ++ l2).getLast? = l2.getLast? :=
  List.getLast?_append_of_ne_nil l1 h

theorem loads_none_of_bad_end {s : PyString} {c : Nat}
    (hlast : s.getLast? = some c) (hg : goodEnd c = false)
    (hw : wsChar c = false) : loads s = Option.none := by
  unfold loads
  rcases hp : parseValue (2 * s.length + 4) (skipWs s) with _ | ⟨⟨v, r⟩⟩
  · rfl
  · dsimp only
    by_cases he : (skipWs r).isEmpty = true
    · exfalso
      obtain ⟨pre, d, hdec, hgd⟩ := (parse_consume _).1 _ v r hp
      obtain ⟨w0, hw0, _⟩ := skipWs_decomp s
      have hallws : ∀ x ∈ r, wsChar x = true := by
        have : skipWs r = [] := List.isEmpty_iff.mp he
        simp only [skipWs] at this
        exact fun x hx => List.dropWhile_eq_nil_iff.mp this x hx
      have hs2 : s = (w0 ++ pre) ++ (d :: r) := by
        conv_lhs => rw [hw0, hdec]
        simp
      rw [hs2, getLast?_append_right (by simp)] at hlast
      cases r with
      | nil =>
        simp only [List.getLast?_singleton, Option.some.injEq] at hlast
        rw [hlast] at hgd
        rw [hgd] at hg
        cases hg
      | cons x xs =>
        rw [List.getLast?_cons_cons] at hlast
        obtain ⟨pre2, hpre2⟩ := eq_append_last_of_getLast? hlast
        have hcmem : c ∈ x :: xs := by
          rw [hpre2]
          exact List.mem_append.mpr (Or.inr (List.mem_singleton.mpr rfl))
        have := hallws c hcmem
        rw [this] at hw
        cases hw
    · rw [if_neg he]

theorem getLast_of_csv_suffix {s : PyString} (h : dotCsv.isSuffixOf s = true) :
    s.getLast? = some 118 := by
  have hsuf : dotCsv <:+ s := List.isSuffixOf_iff_suffix.mp h
  obtain ⟨t, ht⟩ := hsuf
  rw [← ht, getLast?_append_right (by simp [dotCsv])]
  rfl

theorem loads_none_of_csv_suffix {s : PyString}
    (h : dotCsv.isSuffixOf s = true) : loads s = Option.none :=
  loads_none_of_bad_end (getLast_of_csv_suffix h) rfl rfl




theorem find?_cons_pos {α : Type} (p : α → Bool) (a : α) (l : List α)
    (h : p a = true) : (a :: l).find? p = some a := by
  rw [List.find?_cons, h]

theorem find?_cons_neg {α : Type} (p : α → Bool) (a : α) (l : List α)
    (h : p a = false) : (a :: l).find? p = l.find? p := by
  rw [List.find?_cons, h]

theorem find?_append_none {α : Type} {p : α → Bool} {l1 l2 : List α}
    (h : l1.find? p = Option.none) : (l1 ++ l2).find? p = l2.find? p := by
  induction l1 with
  | nil => rfl
  | cons x xs ih =>
    cases hx : p x with
    | true =>
      rw [find?_cons_pos p x xs hx] at h
      cases h
    | false =>
      rw [find?_cons_neg p x xs hx] at h
      rw [List.cons_append, find?_cons_neg p x (xs ++ l2) hx]
      exact ih h

theorem find?_none_of_all_neg {α : Type} {p : α → Bool} {l : List α}
    (h : ∀ x ∈ l, p x = false) : l.find? p = Option.none := by
  induction l with
  | nil => rfl
  | cons x xs ih =>
    rw [find?_cons_neg p x xs (h x (List.mem_cons_self x xs))]
    exact ih (fun y hy => h y (List.mem_cons_of_mem x hy))

theorem find?_append_some {α : Type} {p : α → Bool} {l1 l2 : List α} {x : α}
    (h : l1.find? p = some x) : (l1 ++ l2).find? p = some x := by
  induction l1 with
  | nil => cases h
  | cons y ys ih =>
    cases hy : p y with
    | true =>
      rw [find?_cons_pos p y ys hy] at h
      rw [List.cons_append, find?_cons_pos p y (ys ++ l2) hy]
      exact h
    | false =>
      rw [find?_cons_neg p y ys hy] at h
      rw [List.cons_append, find?_cons_neg p y (ys ++ l2) hy]
      exact ih h

theorem strDictGet_map_replace {k v : PyString} :
    ∀ (d : List (PyString × PyString)), d.any (fun kv => kv.1 == k) = true →
    strDictGet (d.map (fun kv => if kv.1 == k then (kv.1, v) else kv)) k = some v := by
  intro d
  induction d with
  | nil =>
    intro hc
    simp at hc
  | cons kv d2 ih =>
    intro hc
    simp only [List.map_cons]
    by_cases hk : (kv.1 == k) = true
    · rw [if_pos hk]
      unfold strDictGet
      rw [find?_cons_pos (fun kv => kv.1 == k) (kv.1, v) _ hk]
      rfl
    · rw [if_neg hk]
      have hkf : (kv.1 == k) = false := Bool.eq_false_iff.mpr hk
      simp only [List.any_cons, Bool.or_eq_true] at hc
      rcases hc with hc1 | hc2
      · exact absurd hc1 hk
      · unfold strDictGet
        rw [find?_cons_neg (fun kv => kv.1 == k) kv _ hkf]
        exact ih hc2

theorem strDictGet_pyDictInsert_self (d : List (PyString × PyString))
    (k v : PyString) : strDictGet (pyDictInsert d k v) k = some v := by
  unfold pyDictInsert
  by_cases hc : d.any (fun kv => kv.1 == k) = true
  · rw [if_pos hc]
    exact strDictGet_map_replace d hc
  · rw [if_neg hc]
    have hcf : d.any (fun kv => kv.1 == k) = false := Bool.eq_false_iff.mpr hc
    have hall : ∀ kv ∈ d, ((kv : PyString × PyString).1 == k) = false := by
      intro kv hkv
      cases hxx : (kv.1 == k) with
      | false => rfl
      | true =>
        have h2 : d.any (fun kv => kv.1 == k) = true :=
          List.any_eq_true.mpr ⟨kv, hkv, hxx⟩
        rw [h2] at hcf
        cases hcf
    unfold strDictGet
    rw [find?_append_none (find?_none_of_all_neg hall)]
    rw [find?_cons_pos (fun kv => kv.1 == k) (k, v) [] (by simp)]
    rfl

theorem strDictGet_pyDictInsert_other {d : List (PyString × PyString)}
    {k v k2 : PyString} (hne : (k2 == k) = false) :
    strDictGet (pyDictInsert d k v) k2 = strDictGet d k2 := by
  unfold pyDictInsert
  by_cases hc : d.any (fun kv => kv.1 == k) = true
  · rw [if_pos hc]
    clear hc
    induction d with
    | nil => rfl
    | cons kv d2 ih =>
      simp only [List.map_cons]
      by_cases hk : (kv.1 == k) = true
      · rw [if_pos hk]
        have hk1 : kv.1 = k := by simpa using hk
        have hf : (kv.1 == k2) = false := by
          rw [hk1]
          cases hkk : (k == k2) with
          | false => rfl
          | true =>
            have hkeq : k = k2 := by simpa using hkk
            rw [hkeq] at hne
            simp at hne
        unfold strDictGet
        rw [find?_cons_neg (fun kv => kv.1 == k2) (kv.1, v) _ hf]
        rw [find?_cons_neg (fun kv => kv.1 == k2) kv _ hf]
        exact ih
      · rw [if_neg hk]
        by_cases hh : (kv.1 == k2) = true
        · unfold strDictGet
          rw [find?_cons_pos (fun kv => kv.1 == k2) kv _ hh]
          rw [find?_cons_pos (fun kv => kv.1 == k2) kv _ hh]
        · have hhf : (kv.1 == k2) = false := Bool.eq_false_iff.mpr hh
          unfold strDictGet
          rw [find?_cons_neg (fun kv => kv.1 == k2) kv _ hhf]
          rw [find?_cons_neg (fun kv => kv.1 == k2) kv _ hhf]
          exact ih
  · rw [if_neg hc]
    unfold strDictGet
    cases hfd : d.find? (fun kv => kv.1 == k2) with
    | some x =>
      rw [find?_append_some hfd]
    | none =>
      rw [find?_append_none hfd]
      have hne2 : ((k : PyString) == k2) = false := by
        cases hkk : (k == k2) with
        | false => rfl
        | true =>
          have hkeq : k2 = k := (show k = k2 by simpa using hkk).symm
          rw [hkeq] at hne
          simp at hne
      rw [find?_cons_neg (fun kv => kv.1 == k2) (k, v) [] hne2]
      rfl

/-- The per-field step of the alias_to_field fold: insert name maps-to
name, then alias maps-to name when an alias is present. -/
def aliasStep (acc : List (PyString × PyString)) (f : ModelField) :
    List (PyString × PyString) :=
  let acc1 := pyDictInsert acc f.name f.name
  match f.aliasName with
  | some a => pyDictInsert acc1 a f.name
  | Option.none => acc1

theorem alias_to_field_eq_fold (fields : List ModelField) :
    alias_to_field fields = fields.foldl aliasStep [] := rfl

theorem aliasStep_get_write {fn : PyString} {fa : Option PyString}
    {acc : List (PyString × PyString)} {k n : PyString}
    (hkey : fn = k ∨ fa = some k)
    (hval1 : fn = k → fn = n) (hval2 : ∀ a, fa = some a → a = k → fn = n) :
    strDictGet (aliasStep acc ⟨fn, fa⟩) k = some n := by
  unfold aliasStep
  cases fa with
  | none =>
    dsimp only
    rcases hkey with hnk | hak
    · rw [← hnk, ← hval1 hnk]
      exact strDictGet_pyDictInsert_self acc fn fn
    · cases hak
  | some a =>
    dsimp only
    by_cases hae : a = k
    · rw [← hae, ← hval2 a rfl hae]
      exact strDictGet_pyDictInsert_self _ a fn
    · have hne : (k == a) = false := beq_false_of_ne (fun he => hae he.symm)
      rw [strDictGet_pyDictInsert_other hne]
      rcases hkey with hnk | hak
      · rw [← hnk, ← hval1 hnk]
        exact strDictGet_pyDictInsert_self acc fn fn
      · simp only [Option.some.injEq] at hak
        exact absurd hak hae

theorem aliasStep_get_keep {fn : PyString} {fa : Option PyString}
    {acc : List (PyString × PyString)} {k n : PyString}
    (hval1 : fn = k → fn = n) (hval2 : ∀ a, fa = some a → a = k → fn = n)
    (hs : strDictGet acc k = some n) :
    strDictGet (aliasStep acc ⟨fn, fa⟩) k = some n := by
  unfold aliasStep
  cases fa with
  | none =>
    dsimp only
    by_cases hnk : fn = k
    · rw [← hnk, ← hval1 hnk]
      exact strDictGet_pyDictInsert_self acc fn fn
    · rw [strDictGet_pyDictInsert_other (beq_false_of_ne (fun he => hnk he.symm))]
      exact hs
  | some a =>
    dsimp only
    by_cases hae : a = k
    · rw [← hae, ← hval2 a rfl hae]
      exact strDictGet_pyDictInsert_self _ a fn
    · rw [strDictGet_pyDictInsert_other (beq_false_of_ne (fun he => hae he.symm))]
      by_cases hnk : fn = k
      · rw [← hnk, ← hval1 hnk]
        exact strDictGet_pyDictInsert_self acc fn fn
      · rw [strDictGet_pyDictInsert_other (beq_false_of_ne (fun he => hnk he.symm))]
        exact hs

theorem aliasStep_get_preserve {fn : PyString} {fa : Option PyString}
    {acc : List (PyString × PyString)} {k n : PyString}
    (hval1 : fn = k → fn = n) (hval2 : ∀ a, fa = some a → a = k → fn = n)
    (hinv : strDictGet acc k = Option.none ∨ strDictGet acc k = some n) :
    strDictGet (aliasStep acc ⟨fn, fa⟩) k = Option.none ∨
      strDictGet (aliasStep acc ⟨fn, fa⟩) k = some n := by
  rcases hinv with h0 | h1
  · unfold aliasStep
    cases fa with
    | none =>
      dsimp only
      by_cases hnk : fn = k
      · right
        rw [← hnk, ← hval1 hnk]
        exact strDictGet_pyDictInsert_self acc fn fn
      · left
        rw [strDictGet_pyDictInsert_other (beq_false_of_ne (fun he => hnk he.symm))]
        exact h0
    | some a =>
      dsimp only
      by_cases hae : a = k
      · right
        rw [← hae, ← hval2 a rfl hae]
        exact strDictGet_pyDictInsert_self _ a fn
      · rw [strDictGet_pyDictInsert_other (beq_false_of_ne (fun he => hae he.symm))]
        by_cases hnk : fn = k
        · right
          rw [← hnk, ← hval1 hnk]
          exact strDictGet_pyDictInsert_self acc fn fn
        · left
          rw [strDictGet_pyDictInsert_other (beq_false_of_ne (fun he => hnk he.symm))]
          exact h0
  · exact Or.inr (aliasStep_get_keep hval1 hval2 h1)

theorem alias_fold_get {k n : PyString} : ∀ (fields : List ModelField)
    (acc : List (PyString × PyString)),
    (∀ f ∈ fields, (f.name = k → f.name = n) ∧
      (∀ a, f.aliasName = some a → a = k → f.name = n)) →
    ((∃ f ∈ fields, f.name = k ∨ f.aliasName = some k) ∨
      strDictGet acc k = some n) →
    (strDictGet acc k = Option.none ∨ strDictGet acc k = some n) →
    strDictGet (fields.foldl aliasStep acc) k = some n := by
  intro fields
  induction fields with
  | nil =>
    intro acc hval hex hinv
    simp only [List.foldl_nil]
    rcases hex with ⟨f, hf, _⟩ | hs
    · cases hf
    · exact hs
  | cons f fs ih =>
    intro acc hval hex hinv
    simp only [List.foldl_cons]
    obtain ⟨fn, fa⟩ := f
    have hvf := hval ⟨fn, fa⟩ (List.mem_cons_self _ _)
    refine ih (aliasStep acc ⟨fn, fa⟩)
      (fun f2 hf2 => hval f2 (List.mem_cons_of_mem _ hf2)) ?_ ?_
    · rcases hex with ⟨f2, hf2, hkey⟩ | hs
      · rcases List.mem_cons.mp hf2 with rfl | hf2s
        · right
          exact aliasStep_get_write hkey hvf.1 hvf.2
        · left
          exact ⟨f2, hf2s, hkey⟩
      · right
        exact aliasStep_get_keep hvf.1 hvf.2 hs
    · exact aliasStep_get_preserve hvf.1 hvf.2 hinv

theorem resolveKey_known {fields : List ModelField} {k n : PyString}
    (hval : ∀ f ∈ fields, (f.name = k → f.name = n) ∧
      (∀ a, f.aliasName = some a → a = k → f.name = n))
    (hex : ∃ f ∈ fields, f.name = k ∨ f.aliasName = some k) :
    resolveKey fields k = n := by
  unfold resolveKey
  have h2 : strDictGet (alias_to_field fields) k = some n := by
    rw [alias_to_field_eq_fold]
    exact alias_fold_get fields [] hval (Or.inl hex) (Or.inl rfl)
  rw [h2]
  rfl

theorem aliasStep_get_none {fn : PyString} {fa : Option PyString}
    {acc : List (PyString × PyString)} {k : PyString}
    (hn : fn ≠ k) (ha : fa ≠ some k)
    (h0 : strDictGet acc k = Option.none) :
    strDictGet (aliasStep acc ⟨fn, fa⟩) k = Option.none := by
  unfold aliasStep
  cases fa with
  | none =>
    dsimp only
    rw [strDictGet_pyDictInsert_other (beq_false_of_ne (fun he => hn he.symm))]
    exact h0
  | some a =>
    dsimp only
    have hae : a ≠ k := fun he => ha (by rw [he])
    rw [strDictGet_pyDictInsert_other (beq_false_of_ne (fun he => hae he.symm))]
    rw [strDictGet_pyDictInsert_other (beq_false_of_ne (fun he => hn he.symm))]
    exact h0

theorem alias_fold_get_none {k : PyString} : ∀ (fields : List ModelField)
    (acc : List (PyString × PyString)),
    (∀ f ∈ fields, f.name ≠ k ∧ f.aliasName ≠ some k) →
    strDictGet acc k = Option.none →
    strDictGet (fields.foldl aliasStep acc) k = Option.none := by
  intro fields
  induction fields with
  | nil =>
    intro acc _ h0
    exact h0
  | cons f fs ih =>
    intro acc hunk h0
    simp only [List.foldl_cons]
    obtain ⟨fn, fa⟩ := f
    have hvf := hunk ⟨fn, fa⟩ (List.mem_cons_self _ _)
    exact ih (aliasStep acc ⟨fn, fa⟩)
      (fun f2 hf2 => hunk f2 (List.mem_cons_of_mem _ hf2))
      (aliasStep_get_none hvf.1 hvf.2 h0)

theorem resolveKey_unknown {fields : List ModelField} {k : PyString}
    (h : ∀ f ∈ fields, f.name ≠ k ∧ f.aliasName ≠ some k) :
    resolveKey fields k = k := by
  unfold resolveKey
  rw [alias_to_field_eq_fold, alias_fold_get_none fields [] h rfl]
  rfl

theorem applyChartConfig_unknown {assign : Assign} {fields : List ModelField}
    {k : PyString} {v : PyVal}
    (hrej : ∀ k2 v2, fields.any (fun f => f.name == k2) = false →
      assign k2 v2 = Option.none)
    (hunk : ∀ f ∈ fields, f.name ≠ k ∧ f.aliasName ≠ some k) :
    ∀ (st : ChartState) (patch : List (PyString × PyVal)), (k, v) ∈ patch →
    applyChartConfig assign fields st patch = Option.none := by
  intro st patch
  induction patch generalizing st with
  | nil =>
    intro hmem
    cases hmem
  | cons kv rest ih =>
    intro hmem
    obtain ⟨k0, v0⟩ := kv
    simp only [applyChartConfig]
    rcases List.mem_cons.mp hmem with heq | hmem2
    · injection heq with hk0 hv0
      subst hk0
      subst hv0
      rw [resolveKey_unknown hunk]
      have hanyf : fields.any (fun f => f.name == k) = false := by
        cases hxx : fields.any (fun f => f.name == k) with
        | false => rfl
        | true =>
          obtain ⟨f, hf, hbeq⟩ := List.any_eq_true.mp hxx
          exact absurd (by simpa using hbeq) (hunk f hf).1
      rw [hrej k v hanyf]
    · cases hassign : assign (resolveKey fields k0) v0 with
      | none => rfl
      | some v2 =>
        dsimp only
        rw [ih _ hmem2]

theorem recGet_not_mem {r : List (PyString × PyVal)} {c : PyString}
    (h : ¬ c ∈ r.map Prod.fst) : recGet r c = PyVal.none := by
  unfold recGet
  rw [find?_none_of_all_neg]
  intro kv hkv
  cases hx : (kv.1 == c) with
  | false => rfl
  | true =>
    have hkc : kv.1 = c := by simpa using hx
    exact absurd (hkc ▸ List.mem_map_of_mem Prod.fst hkv) h

theorem handleParsed_no_raw (v : PyVal) :
    handleParsed v ≠ .error .unsupportedRawDelimited := by
  cases v with
  | none => intro hcon; cases hcon
  | bool b => intro hcon; cases hcon
  | num t => intro hcon; cases hcon
  | str s => intro hcon; cases hcon
  | list xs =>
    cases xs with
    | nil => intro hcon; cases hcon
    | cons x xs2 =>
      simp only [handleParsed]
      by_cases hall : (x :: xs2).all isDictVal = true
      · rw [if_pos hall]
        intro hcon
        cases hcon
      · rw [if_neg hall]
        intro hcon
        cases hcon
  | dict kvs =>
    cases kvs with
    | nil => intro hcon; cases hcon
    | cons kv kvs2 =>
      simp only [handleParsed]
      by_cases hall : (kv :: kvs2).all (fun e => isListVal e.2) = true
      · rw [if_pos hall]
        by_cases hsl : sameLengths (((kv :: kvs2).map
            (fun e => (e.1, listOf e.2))).map Prod.snd) = true
        · rw [if_pos hsl]
          intro hcon
          cases hcon
        · rw [if_neg hsl]
          intro hcon
          cases hcon
      · rw [if_neg hall]
        intro hcon
        cases hcon

/-- Two-file chain: a .json file whose content is a JSON string naming a
second file, whose content is a record list. -/
def fsChain : Fs :=
  [(pystr "/a.json", pystr "\"/b.json\""),
   (pystr "/b.json", pystr "[\x7b\"a\": 1\x7d]")]

/-- A chart model with an aliased field, exercising the alias table. -/
def aliasedFields : List ModelField :=
  [⟨fChartId, Option.none⟩, ⟨fTitle, some (pystr "chartTitle")⟩]

/-! ## The claims -/

/-- C1: the spec says a patch entry that sets the discriminator
(chart_type) to a different value is silently overridden back to the
original value, never honored.  In the code (the setattr loop of
update_chart in src/datawrapper_mcp/handlers/update.py), a chart_type
patch entry is resolved and written through to the live chart like any
other field: the updated chart carries the patched value, and the
original value is lost.  The claim fails against the code. -/
theorem c1_discriminator_written_through :
    applyChartConfig (permissiveAssign demoFields) demoFields demoChart
        [(fChartType, .str (pystr "d3-lines"))] =
      some (⟨[(fChartId, .str (pystr "test123")),
              (fChartType, .str (pystr "d3-lines")),
              (fTitle, .str (pystr "Original Title"))]⟩, [fChartType]) ∧
    getAttr demoChart fChartType = .str (pystr "column-chart") := by decide

/-- C4: the spec says the set of attributes written back onto the live
configuration instance never contains chart_id, chart_type or data.  In
the code (the setattr loop of update_chart in
src/datawrapper_mcp/handlers/update.py), every patch key is written
after alias resolution, with no exclusion set: a patch naming chart_id,
chart_type and data gets all three written.  The claim fails against the
code. -/
theorem c4_protected_fields_written :
    (applyChartConfig (permissiveAssign demoFields) demoFields demoChart
        [(fChartId, .str (pystr "zzz999")), (fChartType, .str (pystr "d3-lines")),
         (fData, .str (pystr "x,y"))]).map Prod.snd =
      some [fChartId, fChartType, fData] := by decide

/-- C2 (amended): each malformed tabular shape fails with its own
distinct reason: empty list and empty dict have empty-input reasons, a
list with a non-dict element fails with NonRecordElement naming the
FIRST element's type (the code reports type(data[0]).__name__, not the
offending element's type), a dict with a non-list value fails with
NonArrayColumn naming all value types, and equal-keyed unequal-length
columns fail with ColumnLengthMismatch. -/
theorem c2_error_taxonomy :
    handleParsed (.list []) = .error .emptyList ∧
    handleParsed (.dict []) = .error .emptyDict ∧
    (∀ x xs, (x :: xs).all isDictVal = false →
      handleParsed (.list (x :: xs)) = .error (.nonRecordElement (typeName x))) ∧
    (∀ kv kvs, (kv :: kvs).all (fun e => isListVal e.2) = false →
      handleParsed (.dict (kv :: kvs)) =
        .error (.nonArrayColumn ((kv :: kvs).map (fun e => typeName e.2)))) ∧
    (∀ kv kvs, (kv :: kvs).all (fun e => isListVal e.2) = true →
      sameLengths (((kv :: kvs).map (fun e => (e.1, listOf e.2))).map Prod.snd)
        = false →
      handleParsed (.dict (kv :: kvs)) = .error .columnLengthMismatch) := by
  refine ⟨rfl, rfl, ?_, ?_, ?_⟩
  · intro x xs hall
    simp only [handleParsed]
    rw [if_neg (by rw [hall]; exact Bool.false_ne_true)]
  · intro kv kvs hall
    simp only [handleParsed]
    rw [if_neg (by rw [hall]; exact Bool.false_ne_true)]
  · intro kv kvs hall hsl
    simp only [handleParsed]
    rw [if_pos hall, if_neg (by rw [hsl]; exact Bool.false_ne_true)]

/-- Witness for C2: a one-element non-dict list hits the
NonRecordElement branch with the named type. -/
theorem c2_error_taxonomy_witness :
    ((PyVal.num (pystr "1") :: []).all isDictVal = false) ∧
    handleParsed (.list [PyVal.num (pystr "1")]) =
      .error (.nonRecordElement (typeName (PyVal.num (pystr "1")))) :=
  ⟨by decide, c2_error_taxonomy.2.2.1 (PyVal.num (pystr "1")) [] (by decide)⟩

/-- Counterexample for C2 as stated: in a list whose first element is a
dict and whose second element is the offending int, the error names
dict, the type of the first element, not int, the type of the offending
element. -/
theorem c2_counterexample :
    handleParsed (.list [.dict [], .num (pystr "1")]) =
      .error (.nonRecordElement (pystr "dict")) ∧
    typeName (PyVal.num (pystr "1")) = pystr "int" ∧
    ¬ (pystr "dict" = pystr "int") := by decide

/-- C3: for every non-empty list of row-mappings, normalization succeeds
with a table whose row count equals the list length, whose columns are
the first-seen union of the row keys, whose rows are the records read
back through the column list, and in which a key missing from a row
reads as null in that row. -/
theorem c3_records_normalization {fs : Fs} {rc : PyString → DfResult}
    {fuel : Nat} {x : PyVal} {xs : List PyVal}
    (hall : (x :: xs).all isDictVal = true) :
    ∃ df, json_to_dataframe fs rc fuel (.list (x :: xs)) = .ok df ∧
      df.rows.length = (x :: xs).length ∧
      df.cols = keyUnion ((x :: xs).map recOf) ∧
      df.rows = ((x :: xs).map recOf).map
        (fun rec => df.cols.map (fun c => recGet rec c)) ∧
      (∀ rec ∈ (x :: xs).map recOf, ∀ c, ¬ c ∈ rec.map Prod.fst →
        recGet rec c = PyVal.none) := by
  refine ⟨dfFromRecords ((x :: xs).map recOf), ?_, ?_, rfl, rfl, ?_⟩
  · simp only [json_to_dataframe, handleParsed]
    rw [if_pos hall]
  · simp [dfFromRecords]
  · intro rec _ c hc
    exact recGet_not_mem hc

/-- Witness for C3: two records with different keys produce a two-row
table over the key union, with nulls at the missing keys. -/
theorem c3_records_normalization_witness :
    ((PyVal.dict [(pystr "a", .num (pystr "1"))] ::
      [PyVal.dict [(pystr "b", .num (pystr "2"))]]).all isDictVal = true) ∧
    ∃ df, json_to_dataframe [] rcStub 1
        (.list [.dict [(pystr "a", .num (pystr "1"))],
                .dict [(pystr "b", .num (pystr "2"))]]) = .ok df ∧
      df.rows.length = 2 ∧
      df.cols = [pystr "a", pystr "b"] ∧
      df.rows = [[.num (pystr "1"), PyVal.none],
                 [PyVal.none, .num (pystr "2")]] := by
  refine ⟨by decide, ?_⟩
  obtain ⟨df, h1, h2, h3, h4, _⟩ :=
    @c3_records_normalization [] rcStub 1
      (PyVal.dict [(pystr "a", .num (pystr "1"))])
      [PyVal.dict [(pystr "b", .num (pystr "2"))]] (by decide)
  refine ⟨df, h1, ?_, ?_, ?_⟩
  · rw [h2]
    rfl
  · rw [h3]
    decide
  · rw [h4, h3]
    decide

/-- C5 (amended): for an input string that is not an existing file,
normalization rejects it as raw delimited content exactly when the
string contains both a newline and a comma and its WHITESPACE-STRIPPED
form does not start with an open bracket or brace (the code tests
data.strip().startswith; the claim as stated omits the strip). -/
theorem c5_raw_delimited_iff {fs : Fs} {rc : PyString → DfResult}
    {fuel : Nat} {s : PyString} (hnf : fsRead fs s = Option.none) :
    json_to_dataframe fs rc fuel (.str s) = .error .unsupportedRawDelimited ↔
      (s.contains 10 && s.contains 44 && !(startsWithOpen (pyStrip s))) = true := by
  have hlc : looksLikeCsv s =
      (s.contains 10 && s.contains 44 && !(startsWithOpen (pyStrip s))) := rfl
  constructor
  · intro h
    rw [← hlc]
    cases hx : looksLikeCsv s with
    | true => rfl
    | false =>
      exfalso
      simp only [json_to_dataframe, hnf] at h
      rw [if_neg (by rw [hx]; exact Bool.false_ne_true)] at h
      rcases hl : loads s with _ | parsed <;> rw [hl] at h <;> dsimp only at h
      · cases h
      · exact handleParsed_no_raw parsed h
  · intro hrhs
    simp only [json_to_dataframe, hnf]
    rw [if_pos (by rw [hlc]; exact hrhs)]

/-- Witness for C5: a bare comma-and-newline string with no leading
bracket is rejected as raw delimited content. -/
theorem c5_raw_delimited_iff_witness :
    fsRead [] (pystr "a,b\nc,d") = Option.none ∧
    json_to_dataframe [] rcStub 1 (.str (pystr "a,b\nc,d")) =
      .error .unsupportedRawDelimited :=
  ⟨by decide,
   (@c5_raw_delimited_iff [] rcStub 1 (pystr "a,b\nc,d") (by decide)).mpr (by decide)⟩

/-- Counterexample for C5 as stated: a JSON array text with a LEADING
SPACE, a newline and a comma satisfies the claim's raw-delimited
condition (the unstripped string starts with a space, not a bracket),
yet the code strips before testing and proceeds to the JSON parse,
failing with MalformedEncoding instead. -/
theorem c5_counterexample :
    fsRead [] (pystr " [1,2],\n") = Option.none ∧
    ((pystr " [1,2],\n").contains 10 && (pystr " [1,2],\n").contains 44 &&
      !(startsWithOpen (pystr " [1,2],\n"))) = true ∧
    json_to_dataframe [] rcStub 1 (.str (pystr " [1,2],\n")) =
      .error .malformedEncoding ∧
    ¬ (json_to_dataframe [] rcStub 1 (.str (pystr " [1,2],\n")) =
      .error .unsupportedRawDelimited) := by decide

/-- C6 (amended): decoding a file is NOT bounded to one level: when a
.json file's content is itself a JSON-encoded string, the decoder
re-enters the full normalization on that string — including the
file-path dispatch — so a file can name another file and force a second
round of decoding, bounded only by the recursion limit (the fuel). -/
theorem c6_file_reentry {fs : Fs} {rc : PyString → DfResult} {fuel : Nat}
    {p content s2 : PyString}
    (hf : fsRead fs p = some content)
    (hnotcsv : dotCsv.isSuffixOf p = false)
    (hjson : dotJson.isSuffixOf p = true)
    (hl : loads content = some (.str s2)) :
    json_to_dataframe fs rc (fuel + 1) (.str p) =
      json_to_dataframe fs rc fuel (.str s2) := by
  have hstep : json_to_dataframe fs rc (fuel + 1) (.str p) =
      match loads content with
      | Option.none => .error .jsonDecodeError
      | some fileData => json_to_dataframe fs rc fuel fileData := by
    simp only [json_to_dataframe, hf]
    rw [if_neg (by rw [hnotcsv]; exact Bool.false_ne_true)]
    rw [if_pos hjson]
  rw [hstep, hl]

/-- Witness for C6: the two-file chain; decoding the first file reduces
to decoding the string content of the first file, which names the
second file. -/
theorem c6_file_reentry_witness :
    fsRead fsChain (pystr "/a.json") = some (pystr "\"/b.json\"") ∧
    dotCsv.isSuffixOf (pystr "/a.json") = false ∧
    dotJson.isSuffixOf (pystr "/a.json") = true ∧
    loads (pystr "\"/b.json\"") = some (.str (pystr "/b.json")) ∧
    json_to_dataframe fsChain rcStub 2 (.str (pystr "/a.json")) =
      json_to_dataframe fsChain rcStub 1 (.str (pystr "/b.json")) :=
  ⟨by decide, by decide, by decide, by decide,
   @c6_file_reentry fsChain rcStub 1 (pystr "/a.json") (pystr "\"/b.json\"")
     (pystr "/b.json") (by decide) (by decide) (by decide) (by decide)⟩

/-- Counterexample for C6 as stated: decoding /a.json (whose content is
the JSON string "/b.json") yields another encoded-text value and
triggers a second round of file decoding: with enough fuel the chain
resolves through the second file to its record list, and with fuel for
only one round it hits the recursion limit instead. -/
theorem c6_counterexample :
    json_to_dataframe fsChain rcStub 2 (.str (pystr "/a.json")) =
      .ok ⟨[pystr "a"], [[.num (pystr "1")]]⟩ ∧
    json_to_dataframe fsChain rcStub 1 (.str (pystr "/a.json")) =
      .error .recursionLimit := by decide

/-- C7: every patch key that is a canonical field name resolves to
itself, a known alias resolves to its field's canonical name, an
unknown key passes through unchanged, and a patch containing an unknown
key makes the update fail with the validation error — it is never
silently dropped and never silently accepted.  The separation
hypothesis (no alias collides with a field name) is the invariant of
the pydantic models the code is built on. -/
theorem c7_alias_resolution {fields : List ModelField}
    (hsep : ∀ f ∈ fields, ∀ g ∈ fields, ∀ a, g.aliasName = some a →
      ¬ f.name = a) :
    (∀ f ∈ fields, resolveKey fields f.name = f.name) ∧
    (∀ k n, (∀ g ∈ fields, g.aliasName = some k → g.name = n) →
      (∃ g ∈ fields, g.aliasName = some k) →
      resolveKey fields k = n) ∧
    (∀ k, (∀ f ∈ fields, ¬ f.name = k ∧ ¬ f.aliasName = some k) →
      resolveKey fields k = k) ∧
    (∀ (assign : Assign),
      (∀ k2 v2, fields.any (fun f => f.name == k2) = false →
        assign k2 v2 = Option.none) →
      ∀ k v st patch, (k, v) ∈ patch →
      (∀ f ∈ fields, ¬ f.name = k ∧ ¬ f.aliasName = some k) →
      applyChartConfig assign fields st patch = Option.none) := by
  refine ⟨?_, ?_, ?_, ?_⟩
  · intro f hf
    refine resolveKey_known ?_ ⟨f, hf, Or.inl rfl⟩
    intro f2 hf2
    refine ⟨fun h => h, ?_⟩
    intro a ha hak
    exact absurd (hak ▸ rfl : f.name = a) (hsep f hf f2 hf2 a ha)
  · intro k n hvals hex
    obtain ⟨g0, hg0, hg0a⟩ := hex
    refine resolveKey_known ?_ ⟨g0, hg0, Or.inr hg0a⟩
    intro f2 hf2
    refine ⟨?_, ?_⟩
    · intro hname
      exact absurd (hname : f2.name = k) (hsep f2 hf2 g0 hg0 k hg0a)
    · intro a ha hak
      exact hvals f2 hf2 (hak ▸ ha)
  · intro k hunk
    exact resolveKey_unknown hunk
  · intro assign hrej k v st patch hmem hunk
    exact applyChartConfig_unknown hrej hunk st patch hmem

/-- Witness for C7: over a model with an aliased title field, the
canonical name resolves to itself, the alias resolves to the canonical
name, an unknown key passes through, and a patch with an unknown key is
rejected. -/
theorem c7_alias_resolution_witness :
    resolveKey aliasedFields fTitle = fTitle ∧
    resolveKey aliasedFields (pystr "chartTitle") = fTitle ∧
    resolveKey aliasedFields (pystr "bogus") = pystr "bogus" ∧
    applyChartConfig (permissiveAssign aliasedFields) aliasedFields ⟨[]⟩
      [(pystr "bogus", PyVal.none)] = Option.none := by
  have h := @c7_alias_resolution aliasedFields (by decide)
  refine ⟨?_, ?_, ?_, ?_⟩
  · exact h.1 ⟨fTitle, some (pystr "chartTitle")⟩ (by decide)
  · exact h.2.1 (pystr "chartTitle") fTitle (by decide) ⟨⟨fTitle, some (pystr "chartTitle")⟩, by decide, rfl⟩
  · exact h.2.2.1 (pystr "bogus") (by decide)
  · refine h.2.2.2 (permissiveAssign aliasedFields) ?_ (pystr "bogus")
      PyVal.none ⟨[]⟩ [(pystr "bogus", PyVal.none)] (by decide) (by decide)
    intro k2 v2 hany
    simp only [permissiveAssign]
    rw [if_neg (by rw [hany]; exact Bool.false_ne_true)]

/-- C8 (amended): an input string ending in .csv that does not name an
existing file falls through to the JSON parse and fails with
MalformedEncoding — provided the raw-delimited heuristic does not
intercept it first (a .csv-suffixed string containing a newline and a
comma and not starting, after stripping, with a bracket is rejected as
raw delimited content instead).  The JSON parse always fails because no
JSON value's text can end in the letter v. -/
theorem c8_missing_csv_malformed {fs : Fs} {rc : PyString → DfResult}
    {fuel : Nat} {s : PyString}
    (hsuf : dotCsv.isSuffixOf s = true)
    (hnf : fsRead fs s = Option.none)
    (hraw : looksLikeCsv s = false) :
    json_to_dataframe fs rc fuel (.str s) = .error .malformedEncoding := by
  simp only [json_to_dataframe, hnf]
  rw [if_neg (by rw [hraw]; exact Bool.false_ne_true)]
  rw [loads_none_of_csv_suffix hsuf]

/-- Witness for C8: the missing path of the spec's own example. -/
theorem c8_missing_csv_malformed_witness :
    dotCsv.isSuffixOf (pystr "/tmp/missing.csv") = true ∧
    fsRead [] (pystr "/tmp/missing.csv") = Option.none ∧
    looksLikeCsv (pystr "/tmp/missing.csv") = false ∧
    json_to_dataframe [] rcStub 1 (.str (pystr "/tmp/missing.csv")) =
      .error .malformedEncoding :=
  ⟨by decide, by decide, by decide,
   @c8_missing_csv_malformed [] rcStub 1 (pystr "/tmp/missing.csv")
     (by decide) (by decide) (by decide)⟩

/-- Counterexample for C8 as stated: a .csv-suffixed non-file string
containing a newline and a comma is rejected by the raw-delimited
heuristic, not handed to the JSON parse: it fails with
UnsupportedRawDelimited, not MalformedEncoding. -/
theorem c8_counterexample :
    dotCsv.isSuffixOf (pystr "a,b\nc.csv") = true ∧
    fsRead [] (pystr "a,b\nc.csv") = Option.none ∧
    json_to_dataframe [] rcStub 1 (.str (pystr "a,b\nc.csv")) =
      .error .unsupportedRawDelimited ∧
    ¬ (json_to_dataframe [] rcStub 1 (.str (pystr "a,b\nc.csv")) =
      .error .malformedEncoding) := by decide

/-- C9: normalization is round-trip stable through the textual encoding
path: when a well-formed input normalizes to a table (and the table's
serialized text is not the name of an existing file, and the external
CSV reader honors the table contract), serializing the table and
normalizing the text reproduces the table exactly, for any fuel. -/
theorem c9_roundtrip {fs : Fs} {rc : PyString → DfResult} {fuel fuel2 : Nat}
    {x : PyVal} {df : DataFrame}
    (hwfx : wfVal x = true)
    (hrc : ∀ p d, rc p = .ok d → wfDf d = true ∧ (d.rows = [] → d.cols ≠ []))
    (h : json_to_dataframe fs rc fuel x = .ok df)
    (hfile : fsRead fs (serialize df) = Option.none) :
    json_to_dataframe fs rc fuel2 (.str (serialize df)) = .ok df := by
  have hwf := wf_normalize hwfx (fun p d hd => (hrc p d hd).1) h
  by_cases hr : df.rows = []
  · exact normalize_serialize_empty hwf hr
      (normalize_cols_ne (fun p d hd => (hrc p d hd).2) h hr) hfile
  · exact normalize_serialize hwf hr hfile

/-- Witness for C9: a one-record list round-trips through its serialized
text. -/
theorem c9_roundtrip_witness :
    wfVal (.list [.dict [(pystr "a", .num (pystr "1"))]]) = true ∧
    json_to_dataframe [] rcStub 1 (.list [.dict [(pystr "a", .num (pystr "1"))]]) =
      .ok ⟨[pystr "a"], [[.num (pystr "1")]]⟩ ∧
    fsRead [] (serialize ⟨[pystr "a"], [[.num (pystr "1")]]⟩) = Option.none ∧
    json_to_dataframe [] rcStub 1
        (.str (serialize ⟨[pystr "a"], [[.num (pystr "1")]]⟩)) =
      .ok ⟨[pystr "a"], [[.num (pystr "1")]]⟩ :=
  ⟨by decide, by decide, by decide,
   @c9_roundtrip [] rcStub 1 1 (.list [.dict [(pystr "a", .num (pystr "1"))]])
     ⟨[pystr "a"], [[.num (pystr "1")]]⟩ (by decide)
     (fun p d hd => nomatch hd) (by decide) (by decide)⟩

/-- C10: a non-file, non-raw-delimited string that parses as a JSON
scalar (null, boolean, number or string) fails with the
unsupported-shape error naming the parsed value's Python type. -/
theorem c10_scalar_unsupported_shape {fs : Fs} {rc : PyString → DfResult}
    {fuel : Nat} {s : PyString} {v : PyVal}
    (hnf : fsRead fs s = Option.none)
    (hraw : looksLikeCsv s = false)
    (hl : loads s = some v)
    (hlist : isListVal v = false) (hdict : isDictVal v = false) :
    json_to_dataframe fs rc fuel (.str s) =
      .error (.unsupportedShape (typeName v)) := by
  simp only [json_to_dataframe, hnf]
  rw [if_neg (by rw [hraw]; exact Bool.false_ne_true)]
  rw [hl]
  cases v with
  | none => rfl
  | bool b => rfl
  | num t => rfl
  | str s2 => rfl
  | list xs => cases hlist
  | dict kvs => cases hdict

/-- Witness for C10: a quoted JSON string parses to a Python str and is
reported as the unsupported type str. -/
theorem c10_scalar_unsupported_shape_witness :
    fsRead [] (pystr "\"hello\"") = Option.none ∧
    looksLikeCsv (pystr "\"hello\"") = false ∧
    loads (pystr "\"hello\"") = some (.str (pystr "hello")) ∧
    json_to_dataframe [] rcStub 1 (.str (pystr "\"hello\"")) =
      .error (.unsupportedShape (typeName (PyVal.str (pystr "hello")))) :=
  ⟨by decide, by decide, by decide,
   @c10_scalar_unsupported_shape [] rcStub 1 (pystr "\"hello\"")
     (.str (pystr "hello")) (by decide) (by decide) (by decide)
     (by decide) (by decide)⟩
